import Mathlib

set_option autoImplicit false

namespace TkSilhouette

universe u

/-!
Verification of the tk-silhouette integration layer.

This file gives a shallow embedding of the two source files of the
repository:

* `engine.py` — the `SilhouetteEngine` class: `create_shotgun_menu`,
  the per-app command collection loop, the action-file writer and
  `destroy_engine`;
* `python/tk_silhouette/utils.py` — the path-format helpers
  `seq_path_to_silhouette_format`, `seq_path_from_silhouette_format`,
  `sequence_range_from_path` and `find_sequence_range`.

External collaborators (the sgtk template system, the pipeline
configuration, the host application) are modelled as explicit
parameters: a `Tk` structure bundles the template operations, and the
engine's environments/apps appear as plain data describing which
commands each transient app registers.

Python dictionaries are modelled as association lists with unique keys
and Python's insertion-order/overwrite semantics (`dictSet`,
`dictUpdate`).  Python exceptions are modelled with `Except`.
-/

/-! ## Python dictionaries as association lists -/

/-- Lookup in a Python-style dict modelled as an association list. -/
def lookupD {α : Type u} : List (String × α) → String → Option α
  | [], _ => none
  | kv :: rest, k => if kv.1 = k then some kv.2 else lookupD rest k

/-- The key list of a dict (Python `d.keys()`, insertion order). -/
def keysD {α : Type u} (d : List (String × α)) : List String :=
  d.map Prod.fst

/-- Python `d[k] = v`: replace in place if the key is present, else
append at the end (insertion order is preserved). -/
def dictSet {α : Type u} (d : List (String × α)) (k : String) (v : α) :
    List (String × α) :=
  if (lookupD d k).isSome then
    d.map (fun kv => if kv.1 = k then (k, v) else kv)
  else
    d ++ [(k, v)]

/-- Python `d.pop(k)` / `del d[k]` (ignoring the returned value). -/
def removeKey {α : Type u} (d : List (String × α)) (k : String) :
    List (String × α) :=
  d.filter (fun kv => kv.1 != k)

/-- Python `d.update(e)`: every entry of `e` is written into `d`
in `e`'s iteration order. -/
def dictUpdate {α : Type u} (d e : List (String × α)) : List (String × α) :=
  e.foldl (fun acc kv => dictSet acc kv.1 kv.2) d

/-! ## Field values and Python errors

`sgtk` template fields map key names to either integers (e.g. a resolved
frame number) or strings (e.g. an abstract `%04d` token or a name field).
Python 2 comparison: an `int` never equals a `str`, and every number
sorts below every string. -/

/-- A resolved template-field value: an integer or a string. -/
inductive FieldVal : Type where
  | intVal (n : Int)
  | strVal (s : String)
deriving DecidableEq

/-- The Python exceptions relevant to the helper module: the `NameError`
raised by the unimported `glob` reference, and the `TypeError` raised by
unpacking `None` or by `str.replace` with a non-string argument. -/
inductive PyErr : Type where
  | nameError
  | typeError
deriving DecidableEq

/-- Python `"{}".format(v)` for a field value. -/
def fvFormat : FieldVal → String
  | .intVal n => toString n
  | .strVal s => s

/-- Python `v == f` where `f` is an `int`: value equality for integers,
always false for strings. -/
def fvEqInt : FieldVal → Int → Bool
  | .intVal n, m => n == m
  | .strVal _, _ => false

/-- Byte-wise lexicographic strict order on character lists
(Python 2 `str` comparison). -/
def charsLt : List Char → List Char → Bool
  | [], [] => false
  | [], _ :: _ => true
  | _ :: _, [] => false
  | a :: as, b :: bs => if a = b then charsLt as bs else decide (a < b)

/-- Python 2 `<` on field values: ints by value, strings
lexicographically, and every number below every string. -/
def fvLt : FieldVal → FieldVal → Bool
  | .intVal a, .intVal b => decide (a < b)
  | .intVal _, .strVal _ => true
  | .strVal _, .intVal _ => false
  | .strVal a, .strVal b => charsLt a.toList b.toList

/-- Python `min(xs)` with `xs = x :: rest`: keeps the first minimal
element (`if y < m: m = y`). -/
def pyMin (x : FieldVal) (xs : List FieldVal) : FieldVal :=
  xs.foldl (fun m y => if fvLt y m then y else m) x

/-- Python `max(xs)` with `xs = x :: rest`: keeps the first maximal
element (`if y > m: m = y`). -/
def pyMax (x : FieldVal) (xs : List FieldVal) : FieldVal :=
  xs.foldl (fun m y => if fvLt m y then y else m) x

/-! ## String helpers: `str.replace`, `os.path.splitext` -/

/-- Python `s.replace("", new)`: the replacement is inserted before
every character and at the end. -/
def pyReplaceEmpty (new : List Char) : List Char → List Char
  | [] => new
  | c :: rest => new ++ c :: pyReplaceEmpty new rest

/-- Replace every non-overlapping occurrence of `old` (nonempty) in `s`
by `new`, scanning left to right.  The fuel argument is an upper bound
on the number of steps; `pyReplace` passes `s.length`, which always
suffices because every step consumes at least one character. -/
def replaceAllAux (old new : List Char) : Nat → List Char → List Char
  | 0, s => s
  | _ + 1, [] => []
  | fuel + 1, c :: rest =>
    if old.isPrefixOf (c :: rest) then
      new ++ replaceAllAux old new fuel ((c :: rest).drop old.length)
    else
      c :: replaceAllAux old new fuel rest

/-- Python `s.replace(old, new)`: all non-overlapping occurrences,
left to right. -/
def pyReplace (s old new : String) : String :=
  if old.toList = [] then String.mk (pyReplaceEmpty new.toList s.toList)
  else String.mk (replaceAllAux old.toList new.toList s.toList.length s.toList)

/-- Index of the last occurrence of `c` in `l` (Python `str.rfind`). -/
def lastIndexOf (l : List Char) (c : Char) : Option Nat :=
  l.enum.foldl (fun acc ic => if ic.2 = c then some ic.1 else acc) none

/-- Python `os.path.splitext` (posix): split off the extension at the
last dot, provided it lies after the last `/` and the basename does not
consist solely of leading dots up to that point. -/
def splitext (p : String) : String × String :=
  let cs := p.toList
  let sepIndex : Int := match lastIndexOf cs '/' with
    | some i => (i : Int)
    | none => -1
  let dotIndex : Int := match lastIndexOf cs '.' with
    | some i => (i : Int)
    | none => -1
  if sepIndex < dotIndex then
    let filenameStart := (sepIndex + 1).toNat
    let base := (cs.drop filenameStart).take (dotIndex.toNat - filenameStart)
    if base.any (fun ch => ch ≠ '.') then
      (String.mk (cs.take dotIndex.toNat), String.mk (cs.drop dotIndex.toNat))
    else (p, "")
  else (p, "")

/-- Numeric value of a list of decimal digits (Python `int(...)` on the
regex group, which only ever contains `0-9`). -/
def digitsToNat (ds : List Char) : Nat :=
  ds.foldl (fun a c => 10 * a + (c.toNat - '0'.toNat)) 0

/-! ## The silhouette frame-range pattern

`SILHOUETTE_FRAME_REGEX = "\.\[(\d+)-\d+\]\."` from `utils.py`.  Matching
at a fixed position is deterministic: a literal `.`, `[`, one or more
digits (group 1), `-`, one or more digits, `]`, `.`. -/

/-- Try to match `\.\[(\d+)-\d+\]\.` at the head of `l`; on success
return group 1 and the length of the whole match. -/
def matchSilhouetteAt (l : List Char) : Option (List Char × Nat) :=
  match l with
  | '.' :: '[' :: rest =>
    let d1 := rest.takeWhile (fun c => c.isDigit)
    if d1 = [] then none
    else
      match rest.drop d1.length with
      | '-' :: rest2 =>
        let d2 := rest2.takeWhile (fun c => c.isDigit)
        if d2 = [] then none
        else
          match rest2.drop d2.length with
          | ']' :: '.' :: _ => some (d1, d1.length + d2.length + 5)
          | _ => none
      | _ => none
  | _ => none

/-- `re.search` with the silhouette pattern: first (leftmost) match,
returning group 1. -/
def silhouetteSearch : List Char → Option (List Char)
  | [] => none
  | c :: rest =>
    match matchSilhouetteAt (c :: rest) with
    | some (d1, _) => some d1
    | none => silhouetteSearch rest

/-- One step of `re.sub` with replacement `".\g<1>."`: fuelled version,
`silhouetteSub` passes the string length (every step consumes at least
one character, a match at least seven). -/
def silhouetteSubAux : Nat → List Char → List Char
  | 0, s => s
  | _ + 1, [] => []
  | fuel + 1, c :: rest =>
    match matchSilhouetteAt (c :: rest) with
    | some (d1, n) => '.' :: (d1 ++ '.' :: silhouetteSubAux fuel ((c :: rest).drop n))
    | none => c :: silhouetteSubAux fuel rest

/-- `compiled_regex.sub(".\g<1>.", path)`: replace every bracket range
by a dot-delimited copy of its first frame group. -/
def silhouetteSub (s : List Char) : List Char :=
  silhouetteSubAux s.length s

/-! ## The frame pattern of `sequence_range_from_path`

`frame_pattern = re.compile(r"([0-9#]+|[%]0\dd)$")`, searched against the
root of the path (extension stripped). -/

/-- A character matched by `[0-9#]`. -/
def isFrameChar (c : Char) : Bool := c.isDigit || c = '#'

/-- Try to match `([0-9#]+|[%]0\dd)$` against the whole suffix `l`
(the pattern is end-anchored, so a match starting at this position must
consume the entire remainder). -/
def frameMatchAt (l : List Char) : Option (List Char) :=
  if !l.isEmpty && l.all isFrameChar then some l
  else
    match l with
    | ['%', '0', d, 'd'] => if d.isDigit then some l else none
    | _ => none

/-- `re.search(frame_pattern, root)`: leftmost match of the end-anchored
pattern. -/
def frameSearch : List Char → Option (List Char)
  | [] => none
  | c :: rest =>
    match frameMatchAt (c :: rest) with
    | some g => some g
    | none => frameSearch rest

/-! ## The external template system

`tk.template_from_path`, `template.get_fields`, `template.apply_fields`
and `tk.paths_from_template` are sgtk services, external to this
repository.  They are modelled as an abstract structure over an abstract
template type `T`; theorems quantify over it, witnesses instantiate it.
`templateStr` is Python `str(template)`, used in error messages.
A Python field dict is an association list `List (String × FieldVal)`. -/

structure Tk (T : Type) where
  template_from_path : String → Option T
  get_fields : T → String → List (String × FieldVal)
  apply_fields : T → List (String × FieldVal) → String
  paths_from_template : T → List (String × FieldVal) → List String → List String
  templateStr : T → String

/-! ## utils.py -/

/-- Error text of `seq_path_to_silhouette_format` when no template
matches. -/
def msgNoTemplate (path : String) : String :=
  "Path " ++ path ++ " does not fit any template. Not formatting it with frame range."

/-- Error text of `seq_path_to_silhouette_format` when the matched
template has no `SEQ` key. -/
def msgNoSeq (path tpl : String) : String :=
  "Path " ++ path ++ " fits template " ++ tpl ++
    " which has no key called SEQ. Not formatting it with frame range."

/-- Error text of `seq_path_from_silhouette_format` when the path has no
`[start-end]` bracket. -/
def msgNoBracket (path : String) : String :=
  "No [start-end] found in source path `" ++ path ++ "`. Not formatting dependency path."

/-- Error text of `seq_path_from_silhouette_format` when no template
matches the single-frame path. -/
def msgFromNoTemplate (path : String) : String :=
  "No template found to match path `" ++ path ++ "`. Not formatting dependency path."

/-- `sequence_range_from_path(path)` from `utils.py`.

The function splits off the extension, searches the end-anchored frame
pattern in the root, and returns `None` when there is no match.  When
the pattern DOES match, the source next builds the glob pattern and
calls `glob.glob(glob_path)` — but `utils.py` never imports `glob`
(only `os`, `re`, `fx`, `sgtk`), so that line raises `NameError` before
any filesystem access; the min/max branch of the source is unreachable,
which is why this embedding needs no filesystem parameter. -/
def sequence_range_from_path (path : String) :
    Except PyErr (Option (FieldVal × FieldVal)) :=
  match frameSearch (splitext path).1.toList with
  | none => .ok none
  | some _ => .error .nameError

/-- The frame values collected by `find_sequence_range` through the
template system: `tk.paths_from_template(template, fields, ["SEQ", "eye"])`,
then each file's `SEQ` field, skipping files without one. -/
def collectFrames {T : Type} (env : Tk T) (t : T) (fields : List (String × FieldVal)) :
    List FieldVal :=
  (env.paths_from_template t fields ["SEQ", "eye"]).filterMap
    (fun file => lookupD (env.get_fields t file) "SEQ")

/-- `find_sequence_range(tk, path)` from `utils.py`: template-based
enumeration when a template with a `SEQ` field matches, otherwise the
fallback to `sequence_range_from_path`.  (In the source the
`template_from_path` call is wrapped in `try/except TankError`; the
external service is modelled as non-raising, so the wrapper is the
plain call.) -/
def find_sequence_range {T : Type} (env : Tk T) (path : String) :
    Except PyErr (Option (FieldVal × FieldVal)) :=
  match env.template_from_path path with
  | none => sequence_range_from_path path
  | some t =>
    let fields := env.get_fields t path
    if (lookupD fields "SEQ").isSome then
      match collectFrames env t fields with
      | [] => .ok none
      | f :: fs => .ok (some (pyMin f fs, pyMax f fs))
    else
      sequence_range_from_path path

/-- `seq_path_to_silhouette_format(tk, path)` from `utils.py`.

Fallible steps faithful to the source: if `find_sequence_range` returns
`None`, the tuple unpacking `start_frame, end_frame = ...` raises
`TypeError`; if the `SEQ` field value is an `int`, then
`formatted_path.replace(replace_value, frame_range_string)` raises
`TypeError` (`str.replace` needs a string). -/
def seq_path_to_silhouette_format {T : Type} (env : Tk T) (path : String) :
    Except PyErr (String × Option String) :=
  match env.template_from_path path with
  | none => .ok (path, some (msgNoTemplate path))
  | some t =>
    let path_fields := env.get_fields t path
    match lookupD path_fields "SEQ" with
    | none => .ok (path, some (msgNoSeq path (env.templateStr t)))
    | some seqv =>
      match find_sequence_range env path with
      | .error e => .error e
      | .ok none => .error .typeError
      | .ok (some (start_frame, end_frame)) =>
        let frame_range_string :=
          "[" ++ fvFormat start_frame ++ "-" ++ fvFormat end_frame ++ "]"
        match seqv with
        | .strVal sv => .ok (pyReplace path sv frame_range_string, none)
        | .intVal _ => .error .typeError

/-- The field-stripping loop of `seq_path_from_silhouette_format`:

    for key, value in fields.items():
        if value == first_frame:
            del fields[key]

`items()` takes a snapshot, the deletions mutate the live dict. -/
def stripFrameFields (fields : List (String × FieldVal)) (first_frame : Int) :
    List (String × FieldVal) :=
  fields.foldl
    (fun fs kv => if fvEqInt kv.2 first_frame then removeKey fs kv.1 else fs)
    fields

/-- `seq_path_from_silhouette_format(tk, path)` from `utils.py`: locate
the `.[start-end].` bracket, substitute the first frame to get a
single-frame path, resolve it against the template system, delete every
resolved field whose value equals the first frame, and re-apply the
remaining fields. -/
def seq_path_from_silhouette_format {T : Type} (env : Tk T) (path : String) :
    String × Option String :=
  match silhouetteSearch path.toList with
  | none => (path, some (msgNoBracket path))
  | some d1 =>
    let first_frame : Int := (digitsToNat d1 : Nat)
    let first_frame_path := String.mk (silhouetteSub path.toList)
    match env.template_from_path first_frame_path with
    | none => (path, some (msgFromNoTemplate path))
    | some t =>
      let fields := env.get_fields t first_frame_path
      (env.apply_fields t (stripFrameFields fields first_frame), none)

/-! ## engine.py

The engine's command registry maps a command name to
`{"properties": ..., "callback": ...}`.  The only property the engine
reads is `properties.get("short_name")`; the rest of the properties and
the callback are abstracted into a numeric `payload` that keeps distinct
commands distinguishable. -/

/-- One registered command: the optional `short_name` property plus an
abstract identity for the remaining properties and the callback. -/
structure Command : Type where
  short_name : Option String
  payload : Nat
deriving DecidableEq

/-- What happens when `create_shotgun_menu` loads one app:
`loadError` models `load_application` raising (`TankError` or any other
exception — both `continue` without touching the registry);
`loaded added initFails` models a successful load whose `init_app` call
registers the commands `added` (in order) and then either returns or
raises — `initFails` records the latter, and `added` are the commands
registered before the failure point. -/
inductive LoadResult : Type where
  | loadError
  | loaded (added : List (String × Command)) (initFails : Bool)
deriving DecidableEq

/-- One app instance declared by an environment for this engine. -/
structure AppSpec : Type where
  name : String
  result : LoadResult
deriving DecidableEq

/-- One configured environment: its name, the engines it declares
(`env_obj.get_engines()`), and its app instances for this engine
(`env_obj.get_apps(self.instance_name)`). -/
structure EnvSpec : Type where
  name : String
  engines : List String
  apps : List AppSpec
deriving DecidableEq

/-- The engine state touched by the claims: the current environment
name, the configured environments (`pc.get_environments()`, in order),
the already-active app instance names (`self.apps`), the live command
registry (`self.commands`) and the scratch directory
(`none` = never created, `some files` = existing with those files). -/
structure EngineState : Type where
  env_name : String
  environments : List EnvSpec
  active_apps : List String
  commands : List (String × Command)
  scratch : Option (List String)
deriving DecidableEq

/-- `SilhouetteEngine.has_ui` (hard-coded `True` in the source). -/
def has_ui : Bool := true

/-- The mutable state of the collection loop inside
`create_shotgun_menu`: the live registry, the `commands_to_write`
accumulator, and the transient app instances destroyed so far. -/
structure MenuLoopState : Type where
  commands : List (String × Command)
  to_write : List (String × Command)
  destroyed : List String
deriving DecidableEq

/-- `Engine.register_command`: `self.commands[name] = command`. -/
def register_command (cmds : List (String × Command)) (name : String) (c : Command) :
    List (String × Command) :=
  dictSet cmds name c

/-- All registrations performed by one app's `init_app`. -/
def registerAll (cmds : List (String × Command)) (added : List (String × Command)) :
    List (String × Command) :=
  added.foldl (fun d kv => register_command d kv.1 kv.2) cmds

/-- The body of the per-app loop of `create_shotgun_menu`: skip apps
already active in the session; on a load error, `continue`; otherwise
snapshot the registry keys, run `init_app` (the registrations land in
the registry whether or not init then fails), and in the `finally`
block move every command under a new name into `commands_to_write`,
pop it from the registry, and destroy the transient app.

The loop inside the `finally` block,

    for new_command_name in new_command_names:
        commands_to_write[new_command_name] = self.commands[new_command_name]
        self.commands.pop(new_command_name)

is `moveNewCommands`, carrying the pair `(commands_to_write, self.commands)`.

The source iterates over the set difference
`set(self.commands.keys()) - set(old_command_keys)`; Python set order is
unspecified, so the embedding fixes registration order (the claims
settled here do not depend on the order). -/
def moveNewCommands (tw cmds : List (String × Command)) (names : List String) :
    List (String × Command) × List (String × Command) :=
  names.foldl
    (fun p n =>
      match lookupD p.2 n with
      | some c => (dictSet p.1 n c, removeKey p.2 n)
      | none => (p.1, removeKey p.2 n))
    (tw, cmds)

def processApp (active : List String) (st : MenuLoopState) (app : AppSpec) :
    MenuLoopState :=
  if active.contains app.name then st
  else
    match app.result with
    | .loadError => st
    | .loaded added _ =>
      let old_command_keys := keysD st.commands
      let cmds := registerAll st.commands added
      let new_command_names :=
        (keysD cmds).filter (fun n => !old_command_keys.contains n)
      let moved := moveNewCommands st.to_write cmds new_command_names
      { commands := moved.2
        to_write := moved.1
        destroyed := st.destroyed ++ [app.name] }

/-- The per-environment loop: only environments declaring this engine
contribute apps. -/
def processEnv (engine_name : String) (active : List String)
    (st : MenuLoopState) (env : EnvSpec) : MenuLoopState :=
  if env.engines.contains engine_name then
    env.apps.foldl (processApp active) st
  else st

/-- The whole collection phase of `create_shotgun_menu`: every
environment except the current one
(`env_names_to_process.remove(self.env.name)` drops the first
occurrence), starting from the session's live registry and an empty
accumulator. -/
def collect_commands (engine_name : String) (e : EngineState) : MenuLoopState :=
  ((e.environments.eraseP (fun env => env.name == e.env_name)).foldl
    (processEnv engine_name e.active_apps)
    { commands := e.commands, to_write := [], destroyed := [] })

/-- Line 105 of `engine.py`: `commands_to_write.update(self.commands)` —
the session's surviving registry entries are merged into the
accumulator, overwriting same-named entries. -/
def menu_commands_to_write (engine_name : String) (e : EngineState) :
    List (String × Command) :=
  let loop := collect_commands engine_name e
  dictUpdate loop.to_write loop.commands

/-- `command["properties"].get("short_name") or "tk_silhouette_cmd_{}".format(i)`:
the fallback also fires on an empty (falsy) short name. -/
def action_class_name (i : Nat) (c : Command) : String :=
  match c.short_name with
  | some s => if s = "" then "tk_silhouette_cmd_" ++ toString i else s
  | none => "tk_silhouette_cmd_" ++ toString i

/-- The action file names written by the final loop of
`create_shotgun_menu`: `"{}.py".format(action_class_name)` for each
accumulated command, in enumeration order. -/
def action_file_names (ctw : List (String × Command)) : List String :=
  ctw.enum.map (fun ic => action_class_name ic.1 ic.2.2 ++ ".py")

/-- Writing the files into the (just-cleared) scratch directory: each
`open(..., "w")` creates the file or overwrites an existing one of the
same name. -/
def write_files (dir : List String) (names : List String) : List String :=
  names.foldl (fun d n => if d.contains n then d else d ++ [n]) dir

/-- `create_shotgun_menu`.  With a UI: collect commands from the other
environments, merge the session's own registry into the accumulator,
ensure the scratch directory exists, delete every item in it, and write
one action file per accumulated command.  Without a UI: return `False`
and change nothing (dead branch here — `has_ui` is hard-coded true). -/
def create_shotgun_menu (engine_name : String) (e : EngineState) :
    EngineState × Bool :=
  if has_ui then
    let loop := collect_commands engine_name e
    let ctw := dictUpdate loop.to_write loop.commands
    let files := write_files [] (action_file_names ctw)
    ({ e with commands := loop.commands, scratch := some files }, true)
  else
    (e, false)

/-- `shutil.rmtree(self.custom_scripts_dir_path)` as seen by
`destroy_engine`: a missing directory raises `OSError` with
`errno == 2` (`ENOENT`); on an existing directory the OS may still fail
with some other errno, injected here through `fault`. -/
def rmtree (scratch : Option (List String)) (fault : Option Int) : Except Int Unit :=
  match scratch with
  | none => .error 2
  | some _ =>
    match fault with
    | some errno => .error errno
    | none => .ok ()

/-- `destroy_engine`: run `rmtree`, swallow an `OSError` whose errno is
2, re-raise anything else. -/
def destroy_engine (e : EngineState) (fault : Option Int) : Except Int EngineState :=
  match rmtree e.scratch fault with
  | .ok _ => .ok { e with scratch := none }
  | .error errno => if errno != 2 then .error errno else .ok e

/-! ## Theorems: destruction and the sequence-range helpers -/

/-- A basename root "ends in a numeric or placeholder frame token": its
last character is a digit or `#`, or it ends in a `%0<digit>d` printf
placeholder.  This is the semantic condition matched by
`frame_pattern = ([0-9#]+|[%]0\dd)$`. -/
def endsWithFrameToken (root : List Char) : Prop :=
  (∃ c, root.getLast? = some c ∧ isFrameChar c = true) ∨
  (∃ pre d, root = pre ++ ['%', '0', d, 'd'] ∧ d.isDigit = true)

/-- A template system matching nothing (for the first branch) and one
whose single template resolves no `SEQ` field (for the second). -/
def noMatchTk : Tk Unit where
  template_from_path _ := none
  get_fields _ _ := []
  apply_fields _ _ := ""
  paths_from_template _ _ _ := []
  templateStr _ := "T"

def noSeqTk : Tk Unit where
  template_from_path _ := some ()
  get_fields _ _ := [("name", .strVal "shot")]
  apply_fields _ _ := ""
  paths_from_template _ _ _ := []
  templateStr _ := "NoSeqTemplate"

/-- Non-strict comparison derived from `fvLt`. -/
def fvLe (a b : FieldVal) : Prop := a = b ∨ fvLt a b = true

/-- A one-template system for the `find_sequence_range` witness: every
path matches, the two enumerated sibling files resolve to frames 1 and
5. -/
def rangeTk : Tk Unit where
  template_from_path _ := some ()
  get_fields _ p :=
    if p = "a.1" then [("SEQ", .intVal 1)]
    else if p = "a.5" then [("SEQ", .intVal 5)]
    else [("SEQ", .intVal 3)]
  apply_fields _ _ := ""
  paths_from_template _ _ _ := ["a.1", "a.5"]
  templateStr _ := "T"

/-- A template system matching nothing, for the fallback conjunct of the
`find_sequence_range` witness. -/
def noTemplateRangeTk : Tk Unit where
  template_from_path _ := none
  get_fields _ _ := []
  apply_fields _ _ := ""
  paths_from_template _ _ _ := []
  templateStr _ := "T"

/-- Modelled from claim C4's wording (not from the source): strip the
sequence-key field — and only that field — when its value equals the
first frame. -/
def seq_path_from_strip_seq_only {T : Type} (env : Tk T) (path : String) :
    String × Option String :=
  match silhouetteSearch path.toList with
  | none => (path, some (msgNoBracket path))
  | some d1 =>
    let first_frame : Int := (digitsToNat d1 : Nat)
    let first_frame_path := String.mk (silhouetteSub path.toList)
    match env.template_from_path first_frame_path with
    | none => (path, some (msgFromNoTemplate path))
    | some t =>
      let fields := env.get_fields t first_frame_path
      (env.apply_fields t
        (fields.filter (fun kv => !(kv.1 == "SEQ" && fvEqInt kv.2 first_frame))), none)

/-- The amended behaviour: strip every resolved field whose value equals
the first frame (the sequence-key field among them), then reapply the
remaining fields. -/
def seq_path_from_strip_all {T : Type} (env : Tk T) (path : String) :
    String × Option String :=
  match silhouetteSearch path.toList with
  | none => (path, some (msgNoBracket path))
  | some d1 =>
    let first_frame : Int := (digitsToNat d1 : Nat)
    let first_frame_path := String.mk (silhouetteSub path.toList)
    match env.template_from_path first_frame_path with
    | none => (path, some (msgFromNoTemplate path))
    | some t =>
      let fields := env.get_fields t first_frame_path
      (env.apply_fields t (fields.filter (fun kv => !(fvEqInt kv.2 first_frame))), none)

/-- A template system exposing the coincidental-value hazard: the
single-frame path `a.1.b` resolves to two fields, `SEQ = 1` and
`version = 1`, and `apply_fields` reveals whether `version` survived. -/
def c4Env : Tk Unit where
  template_from_path p := if p = "a.1.b" then some () else none
  get_fields _ _ := [("SEQ", .intVal 1), ("version", .intVal 1)]
  apply_fields _ f := if (lookupD f "version").isSome then "kept-version" else "dropped-version"
  paths_from_template _ _ _ := []
  templateStr _ := "T"

/-- A concrete template system for the round-trip witness: one template
`plate.<SEQ>.exr` whose abstract form carries the `%04d` token, with
frames 1 and 20 on disk. -/
def roundTk : Tk Unit where
  template_from_path p :=
    if p = "plate.%04d.exr" || p = "plate.1.exr" || p = "plate.20.exr" then some () else none
  get_fields _ p :=
    if p = "plate.%04d.exr" then [("SEQ", .strVal "%04d")]
    else if p = "plate.1.exr" then [("SEQ", .intVal 1)]
    else if p = "plate.20.exr" then [("SEQ", .intVal 20)]
    else []
  apply_fields _ f := if lookupD f "SEQ" = none then "plate.%04d.exr" else "plate.other.exr"
  paths_from_template _ _ _ := ["plate.1.exr", "plate.20.exr"]
  templateStr _ := "Template"

/-- Does this app's (modelled) init register the name `n`? -/
def appAddsName (app : AppSpec) (n : String) : Bool :=
  match app.result with
  | .loadError => false
  | .loaded added _ => added.any (fun kv => kv.1 == n)

/-- The engine state of the C2 counterexample: the current session owns
`foo`, and the single other environment's app re-registers `foo`. -/
def c2State : EngineState where
  env_name := "cur"
  environments :=
    [ { name := "cur", engines := ["tk-silhouette"], apps := [] }
    , { name := "other", engines := ["tk-silhouette"]
      , apps := [{ name := "appX", result := .loaded [("foo", ⟨none, 7⟩)] false }] } ]
  active_apps := []
  commands := [("foo", ⟨none, 3⟩)]
  scratch := none

/-- The engine state of the C2 witness: the session owns `foo`; the
other environment's app registers only the unrelated name `bar`. -/
def c2WitnessState : EngineState where
  env_name := "cur"
  environments :=
    [ { name := "cur", engines := ["tk-silhouette"], apps := [] }
    , { name := "other", engines := ["tk-silhouette"]
      , apps := [{ name := "appY", result := .loaded [("bar", ⟨none, 9⟩)] false }] } ]
  active_apps := []
  commands := [("foo", ⟨none, 3⟩)]
  scratch := none

/-- The engine state of the C1 counterexample: two session commands
share the `short_name` `foo`. -/
def c1State : EngineState where
  env_name := "cur"
  environments := []
  active_apps := []
  commands := [("cmdA", ⟨some "foo", 0⟩), ("cmdB", ⟨some "foo", 1⟩)]
  scratch := some ["stale.py"]

/-- The engine state of the C1 witness: two session commands with
distinct short names, plus a stale file in the scratch directory. -/
def c1WitnessState : EngineState where
  env_name := "cur"
  environments := []
  active_apps := []
  commands := [("cmdA", ⟨some "sa", 0⟩), ("cmdB", ⟨some "sb", 1⟩)]
  scratch := some ["stale.py"]

@[simp] theorem keysD_nil {α : Type u} : keysD ([] : List (String × α)) = [] := rfl

@[simp] theorem keysD_cons {α : Type u} (kv : String × α) (rest : List (String × α)) :
    keysD (kv :: rest) = kv.1 :: keysD rest := rfl

@[simp] theorem keysD_append {α : Type u} (d e : List (String × α)) :
    keysD (d ++ e) = keysD d ++ keysD e := by
  simp [keysD]

theorem lookupD_append {α : Type u} (d e : List (String × α)) (k : String) :
    lookupD (d ++ e) k =
      match lookupD d k with
      | some v => some v
      | none => lookupD e k := by
  induction d with
  | nil => simp [lookupD]
  | cons kv rest ih =>
    by_cases hk : kv.1 = k <;> simp [lookupD, hk, ih]

theorem lookupD_map_overwrite {α : Type u} (d : List (String × α)) (k k' : String) (v : α)
    (h : k' ≠ k) :
    lookupD (d.map (fun kv => if kv.1 = k then (k, v) else kv)) k' = lookupD d k' := by
  induction d with
  | nil => simp [lookupD]
  | cons kv rest ih =>
    by_cases hk : kv.1 = k
    · have hne : ¬ (k = k') := fun he => h he.symm
      simp [lookupD, hk, hne, ih, fun he => h (hk ▸ he : (k : String) = k').symm]
    · simp [lookupD, hk, ih]

theorem lookupD_dictSet_self {α : Type u} (d : List (String × α)) (k : String) (v : α) :
    lookupD (dictSet d k v) k = some v := by
  unfold dictSet
  by_cases h : (lookupD d k).isSome
  · simp only [h, if_true]
    induction d with
    | nil => simp [lookupD] at h
    | cons kv rest ih =>
      by_cases hk : kv.1 = k
      · simp [lookupD, hk]
      · simp only [List.map_cons, if_neg hk, lookupD, hk, if_false]
        apply ih
        simpa [lookupD, hk] using h
  · simp only [h, if_false, lookupD_append]
    induction d with
    | nil => simp [lookupD]
    | cons kv rest ih =>
      by_cases hk : kv.1 = k
      · exfalso; apply h; simp [lookupD, hk]
      · simp only [lookupD, hk, if_false]
        apply ih
        intro hs; apply h; simp [lookupD, hk, hs]

theorem lookupD_dictSet_ne {α : Type u} (d : List (String × α)) (k k' : String) (v : α)
    (h : k' ≠ k) : lookupD (dictSet d k v) k' = lookupD d k' := by
  unfold dictSet
  by_cases hs : (lookupD d k).isSome
  · simp only [hs, if_true]
    exact lookupD_map_overwrite d k k' v h
  · rw [if_neg hs, lookupD_append]
    cases hl : lookupD d k' with
    | some v' => rfl
    | none => simp [lookupD, Ne.symm h]

theorem keysD_dictSet_of_mem {α : Type u} (d : List (String × α)) (k : String) (v : α)
    (h : (lookupD d k).isSome) : keysD (dictSet d k v) = keysD d := by
  unfold dictSet
  simp only [h, if_true, keysD, List.map_map]
  apply List.map_congr_left
  intro kv _
  by_cases hk : kv.1 = k <;> simp [hk]

theorem keysD_dictSet_of_not_mem {α : Type u} (d : List (String × α)) (k : String) (v : α)
    (h : ¬ (lookupD d k).isSome) : keysD (dictSet d k v) = keysD d ++ [k] := by
  unfold dictSet
  simp [h, keysD]

theorem lookupD_isSome_iff_mem_keysD {α : Type u} (d : List (String × α)) (k : String) :
    (lookupD d k).isSome ↔ k ∈ keysD d := by
  induction d with
  | nil => simp [lookupD]
  | cons kv rest ih =>
    by_cases hk : kv.1 = k
    · simp [lookupD, hk]
    · have hk2 : ¬ (k = kv.1) := fun he => hk he.symm
      simp [lookupD, hk, hk2, ih]

theorem lookupD_removeKey {α : Type u} (d : List (String × α)) (k k' : String) :
    lookupD (removeKey d k) k' = if k' = k then none else lookupD d k' := by
  induction d with
  | nil => simp [removeKey, lookupD]
  | cons kv rest ih =>
    simp only [removeKey] at ih ⊢
    by_cases hk : kv.1 = k
    · have hb : (kv.1 != k) = false := by simp [bne, hk]
      rw [List.filter_cons, hb, if_neg (by simp), ih]
      by_cases hkk : k' = k
      · simp [hkk]
      · have : ¬ (kv.1 = k') := fun he => hkk ((he.symm.trans hk))
        simp [hkk, lookupD, this]
    · have hb : (kv.1 != k) = true := by simpa [bne] using hk
      rw [List.filter_cons, hb, if_pos rfl]
      by_cases hkk : kv.1 = k'
      · have : ¬ (k' = k) := fun he => hk (hkk.trans he)
        simp [lookupD, hkk, this]
      · simp [lookupD, hkk, ih]

theorem frameMatchAt_isSome_iff (l : List Char) :
    (frameMatchAt l).isSome = true ↔
      ((!l.isEmpty && l.all isFrameChar) = true ∨
        ∃ d, l = ['%', '0', d, 'd'] ∧ d.isDigit = true) := by
  unfold frameMatchAt
  by_cases hc : (!l.isEmpty && l.all isFrameChar) = true
  · simp [hc]
  · rw [if_neg hc]
    constructor
    · intro hs
      right
      split at hs
      · rename_i d
        refine ⟨d, rfl, ?_⟩
        by_cases hd : d.isDigit <;> simp [hd] at hs ⊢
      · simp at hs
    · rintro (h | ⟨d, rfl, hd⟩)
      · exact absurd h hc
      · simp [hd]

theorem frameMatchAt_percent (d : Char) (hd : d.isDigit = true) :
    (frameMatchAt ['%', '0', d, 'd']).isSome = true := by
  rw [frameMatchAt_isSome_iff]
  exact Or.inr ⟨d, rfl, hd⟩

theorem frameSearch_isSome_iff (root : List Char) :
    (frameSearch root).isSome = true ↔ endsWithFrameToken root := by
  induction root with
  | nil =>
    simp only [frameSearch, Option.isSome_none, endsWithFrameToken]
    constructor
    · intro h; cases h
    · rintro (⟨c, hc, _⟩ | ⟨pre, d, hp, _⟩)
      · simp at hc
      · cases pre <;> simp_all
  | cons c rest ih =>
    constructor
    · intro hs
      unfold frameSearch at hs
      cases hm : frameMatchAt (c :: rest) with
      | some g =>
        have := (frameMatchAt_isSome_iff (c :: rest)).1 (by simp [hm])
        rcases this with h | ⟨d, he, hd⟩
        · left
          have hne : (c :: rest) ≠ [] := by simp
          obtain ⟨a, ha⟩ := Option.isSome_iff_exists.1 ((List.getLast?_isSome).2 hne)
          refine ⟨a, ha, ?_⟩
          have hmem : a ∈ c :: rest := List.mem_of_mem_getLast? (Option.mem_def.mpr ha)
          have hall : (c :: rest).all isFrameChar = true := ((Bool.and_eq_true _ _ ▸ h : _ ∧ _)).2
          exact (List.all_eq_true.1 hall) a hmem
        · exact Or.inr ⟨[], d, he, hd⟩
      | none =>
        rw [hm] at hs
        rcases ih.1 hs with ⟨a, ha, hfa⟩ | ⟨pre, d, hp, hd⟩
        · left
          have hne : rest ≠ [] := by
            intro h; rw [h] at ha; simp at ha
          obtain ⟨b, l, rfl⟩ := List.exists_cons_of_ne_nil hne
          exact ⟨a, by simpa [List.getLast?_cons_cons] using ha, hfa⟩
        · exact Or.inr ⟨c :: pre, d, by simp [hp], hd⟩
    · intro h
      unfold frameSearch
      cases hm : frameMatchAt (c :: rest) with
      | some g => simp
      | none =>
        apply ih.2
        rcases h with ⟨a, ha, hfa⟩ | ⟨pre, d, hp, hd⟩
        · cases hr : rest with
          | nil =>
            exfalso
            subst hr
            have hac : a = c := by simpa using ha.symm
            rw [hac] at hfa
            have hsome : (frameMatchAt [c]).isSome = true := by
              rw [frameMatchAt_isSome_iff]
              exact Or.inl (by simp [hfa])
            rw [hm] at hsome
            simp at hsome
          | cons b l =>
            subst hr
            exact Or.inl ⟨a, by simpa [List.getLast?_cons_cons] using ha, hfa⟩
        · cases pre with
          | nil =>
            exfalso
            simp only [List.nil_append, List.cons.injEq] at hp
            have hsome : (frameMatchAt (c :: rest)).isSome = true := by
              rw [hp.1, hp.2]
              exact frameMatchAt_percent d hd
            rw [hm] at hsome
            simp at hsome
          | cons p pre' =>
            simp only [List.cons_append, List.cons.injEq] at hp
            exact Or.inr ⟨pre', d, hp.2, hd⟩

/-- Claim C3: destroying the engine when the scratch directory was never
created does not raise; teardown ignores a "does not exist" error
(errno 2) but re-raises any other OS-level error from the directory
removal. -/
theorem destroy_engine_error_handling (e : EngineState) :
    (e.scratch = none → ∀ fault : Option Int, destroy_engine e fault = .ok e) ∧
    (∀ files : List String, ∀ n : Int, e.scratch = some files → n ≠ 2 →
      destroy_engine e (some n) = .error n) ∧
    (∀ files : List String, e.scratch = some files →
      destroy_engine e (some 2) = .ok e) := by
  refine ⟨?_, ?_, ?_⟩
  · intro h fault
    simp [destroy_engine, rmtree, h]
  · intro files n h hn
    simp only [destroy_engine, rmtree, h]
    have : (n != 2) = true := by simpa [bne] using hn
    simp [this]
  · intro files h
    simp [destroy_engine, rmtree, h]

/-- Witness for `destroy_engine_error_handling` at a concrete state:
teardown with the scratch directory never created succeeds, and a
permission error (errno 13) on an existing directory propagates. -/
theorem destroy_engine_error_handling_witness :
    (destroy_engine ⟨"cur", [], [], [], none⟩ (some 13) = .ok ⟨"cur", [], [], [], none⟩) ∧
    (destroy_engine ⟨"cur", [], [], [], some ["a.py"]⟩ (some 13) = .error 13) := by
  constructor
  · exact (destroy_engine_error_handling ⟨"cur", [], [], [], none⟩).1 rfl (some 13)
  · exact (destroy_engine_error_handling ⟨"cur", [], [], [], some ["a.py"]⟩).2.1
      ["a.py"] 13 rfl (by decide)

/-- Claim C6 (code bug): `sequence_range_from_path "shot_0010.jpg"` is
claimed to return `(1, 20)` when the directory holds
`shot_0001.jpg .. shot_0020.jpg`, but the frame pattern matches
(`"0010"`), so the source reaches `glob.glob` and raises `NameError`
(`glob` is never imported in `utils.py`) regardless of the directory
contents. -/
theorem sequence_range_from_path_shot_0010_raises :
    sequence_range_from_path "shot_0010.jpg" = .error .nameError := by
  rfl

/-- Claim C7: whenever the basename root ends in a numeric or
placeholder frame token (the frame regex matches),
`sequence_range_from_path` raises `NameError` at the directory-listing
step because `glob` is never imported; the function returns normally
(with `None`) exactly on the no-match branch. -/
theorem sequence_range_from_path_name_error (path : String) :
    (endsWithFrameToken (splitext path).1.toList →
      sequence_range_from_path path = .error .nameError) ∧
    (¬ endsWithFrameToken (splitext path).1.toList →
      sequence_range_from_path path = .ok none) := by
  constructor
  · intro h
    have hs : (frameSearch (splitext path).1.toList).isSome = true :=
      (frameSearch_isSome_iff _).2 h
    unfold sequence_range_from_path
    cases hm : frameSearch (splitext path).1.toList with
    | none => rw [hm] at hs; simp at hs
    | some g => rfl
  · intro h
    have hs : ¬ (frameSearch (splitext path).1.toList).isSome = true :=
      fun hsome => h ((frameSearch_isSome_iff _).1 hsome)
    unfold sequence_range_from_path
    cases hm : frameSearch (splitext path).1.toList with
    | none => rfl
    | some g => rw [hm] at hs; simp at hs

/-- Witness for `sequence_range_from_path_name_error`: the path
`shot_0010.jpg` ends in the numeric token `0010` and raises; the path
`clip.mov` has no frame token and returns `None`. -/
theorem sequence_range_from_path_name_error_witness :
    endsWithFrameToken (splitext "shot_0010.jpg").1.toList ∧
    sequence_range_from_path "shot_0010.jpg" = .error .nameError ∧
    sequence_range_from_path "clip.mov" = .ok none := by
  have h1 : endsWithFrameToken (splitext "shot_0010.jpg").1.toList :=
    Or.inl ⟨'0', by rfl, by decide⟩
  have h2 : ¬ endsWithFrameToken (splitext "clip.mov").1.toList := by
    rintro (⟨c, hc, hfc⟩ | ⟨pre, d, hp, hd⟩)
    · have : c = 'p' := by
        have : (splitext "clip.mov").1.toList = ['c', 'l', 'i', 'p'] := by rfl
        rw [this] at hc
        simpa using hc.symm
      rw [this] at hfc
      simp [isFrameChar] at hfc
    · have hlist : (splitext "clip.mov").1.toList = ['c', 'l', 'i', 'p'] := by rfl
      rw [hlist] at hp
      cases pre with
      | nil =>
        have hc : 'c' = '%' := by injection hp
        exact absurd hc (by decide)
      | cons a pre' =>
        have hlen := congrArg List.length hp
        simp [List.length_append] at hlen
  exact ⟨h1, (sequence_range_from_path_name_error "shot_0010.jpg").1 h1,
    (sequence_range_from_path_name_error "clip.mov").2 h2⟩

/-! ## Theorems: `seq_path_to_silhouette_format` no-match handling -/

theorem msgNoTemplate_ne_empty (path : String) : msgNoTemplate path ≠ "" := by
  intro h
  have hl := congrArg String.length h
  rw [msgNoTemplate] at hl
  simp [String.length_append] at hl
  exact absurd hl.1.1 (by decide)

theorem msgNoSeq_ne_empty (path tpl : String) : msgNoSeq path tpl ≠ "" := by
  intro h
  have hl := congrArg String.length h
  rw [msgNoSeq] at hl
  simp [String.length_append] at hl
  exact absurd hl.1.1.1.1 (by decide)

/-- Claim C8: `seq_path_to_silhouette_format` on a path that matches no
template, or whose matched template has no `SEQ` key, returns the
original path unchanged together with a non-empty descriptive error
message, and does not raise on these branches. -/
theorem seq_path_to_silhouette_format_no_match {T : Type} (env : Tk T) (path : String) :
    (env.template_from_path path = none →
      seq_path_to_silhouette_format env path = .ok (path, some (msgNoTemplate path)) ∧
        msgNoTemplate path ≠ "") ∧
    (∀ t : T, env.template_from_path path = some t →
      lookupD (env.get_fields t path) "SEQ" = none →
      seq_path_to_silhouette_format env path =
          .ok (path, some (msgNoSeq path (env.templateStr t))) ∧
        msgNoSeq path (env.templateStr t) ≠ "") := by
  constructor
  · intro h
    refine ⟨?_, msgNoTemplate_ne_empty path⟩
    unfold seq_path_to_silhouette_format
    rw [h]
  · intro t ht hseq
    refine ⟨?_, msgNoSeq_ne_empty path (env.templateStr t)⟩
    unfold seq_path_to_silhouette_format
    rw [ht]
    simp only [hseq]

/-- Witness for `seq_path_to_silhouette_format_no_match` at concrete
template systems and a concrete path. -/
theorem seq_path_to_silhouette_format_no_match_witness :
    (seq_path_to_silhouette_format noMatchTk "shots/sh01/plate.0001.exr" =
      .ok ("shots/sh01/plate.0001.exr", some (msgNoTemplate "shots/sh01/plate.0001.exr")) ∧
      msgNoTemplate "shots/sh01/plate.0001.exr" ≠ "") ∧
    (seq_path_to_silhouette_format noSeqTk "shots/sh01/plate.0001.exr" =
      .ok ("shots/sh01/plate.0001.exr",
        some (msgNoSeq "shots/sh01/plate.0001.exr" "NoSeqTemplate")) ∧
      msgNoSeq "shots/sh01/plate.0001.exr" "NoSeqTemplate" ≠ "") := by
  constructor
  · exact (seq_path_to_silhouette_format_no_match noMatchTk "shots/sh01/plate.0001.exr").1 rfl
  · exact (seq_path_to_silhouette_format_no_match noSeqTk "shots/sh01/plate.0001.exr").2
      () rfl rfl

/-! ## Order lemmas for Python `min`/`max` over field values -/

theorem charsLt_irrefl (l : List Char) : charsLt l l = false := by
  induction l with
  | nil => rfl
  | cons a as ih => simp [charsLt, ih]

theorem charsLt_trans (a b c : List Char) (hab : charsLt a b = true)
    (hbc : charsLt b c = true) : charsLt a c = true := by
  induction a generalizing b c with
  | nil =>
    cases b with
    | nil => simp [charsLt] at hab
    | cons y ys =>
      cases c with
      | nil => simp [charsLt] at hbc
      | cons z zs => simp [charsLt]
  | cons x xs ih =>
    cases b with
    | nil => simp [charsLt] at hab
    | cons y ys =>
      cases c with
      | nil => simp [charsLt] at hbc
      | cons z zs =>
        simp only [charsLt] at hab hbc ⊢
        by_cases hxy : x = y
        · subst hxy
          rw [if_pos rfl] at hab
          by_cases hyz : x = z
          · subst hyz
            rw [if_pos rfl] at hbc
            rw [if_pos rfl]
            exact ih ys zs hab hbc
          · rw [if_neg hyz] at hbc
            rw [if_neg hyz]
            exact hbc
        · rw [if_neg hxy] at hab
          have hxy' : x < y := of_decide_eq_true hab
          by_cases hyz : y = z
          · have hxz : ¬ x = z := fun he => hxy (he.trans hyz.symm)
            rw [if_neg hxz]
            exact decide_eq_true (hyz ▸ hxy')
          · rw [if_neg hyz] at hbc
            have hyz' : y < z := of_decide_eq_true hbc
            have hxz' : x < z := lt_trans hxy' hyz'
            have hxz : ¬ x = z := ne_of_lt hxz'
            rw [if_neg hxz]
            exact decide_eq_true hxz'

theorem fvLt_irrefl (v : FieldVal) : fvLt v v = false := by
  cases v with
  | intVal n => simp [fvLt]
  | strVal s => simp [fvLt, charsLt_irrefl]

theorem fvLt_trans (a b c : FieldVal) (hab : fvLt a b = true) (hbc : fvLt b c = true) :
    fvLt a c = true := by
  cases a with
  | intVal na =>
    cases c with
    | strVal sc => simp [fvLt]
    | intVal nc =>
      cases b with
      | strVal sb => simp [fvLt] at hbc
      | intVal nb =>
        simp only [fvLt, decide_eq_true_eq] at hab hbc ⊢
        omega
  | strVal sa =>
    cases b with
    | intVal nb => simp [fvLt] at hab
    | strVal sb =>
      cases c with
      | intVal nc => simp [fvLt] at hbc
      | strVal sc =>
        simp only [fvLt] at hab hbc ⊢
        exact charsLt_trans _ _ _ hab hbc

theorem fvLt_asymm (a b : FieldVal) (hab : fvLt a b = true) : fvLt b a = false := by
  cases h : fvLt b a
  · rfl
  · have := fvLt_trans a b a hab h
    rw [fvLt_irrefl] at this
    cases this

theorem fvLe_trans (a b c : FieldVal) (hab : fvLe a b) (hbc : fvLe b c) : fvLe a c := by
  rcases hab with rfl | hab
  · exact hbc
  · rcases hbc with rfl | hbc
    · exact Or.inr hab
    · exact Or.inr (fvLt_trans a b c hab hbc)

@[simp] theorem pyMin_nil (x : FieldVal) : pyMin x [] = x := rfl

theorem pyMin_cons (x z : FieldVal) (zs : List FieldVal) :
    pyMin x (z :: zs) = pyMin (if fvLt z x = true then z else x) zs := rfl

@[simp] theorem pyMax_nil (x : FieldVal) : pyMax x [] = x := rfl

theorem pyMax_cons (x z : FieldVal) (zs : List FieldVal) :
    pyMax x (z :: zs) = pyMax (if fvLt x z = true then z else x) zs := rfl

theorem pyMin_mem (x : FieldVal) (xs : List FieldVal) : pyMin x xs ∈ x :: xs := by
  induction xs generalizing x with
  | nil => simp
  | cons z zs ih =>
    rw [pyMin_cons]
    by_cases h : fvLt z x = true
    · rw [if_pos h]
      rcases List.mem_cons.1 (ih z) with h' | h'
      · exact List.mem_cons.2 (Or.inr (List.mem_cons.2 (Or.inl h')))
      · exact List.mem_cons.2 (Or.inr (List.mem_cons.2 (Or.inr h')))
    · rw [if_neg h]
      rcases List.mem_cons.1 (ih x) with h' | h'
      · exact List.mem_cons.2 (Or.inl h')
      · exact List.mem_cons.2 (Or.inr (List.mem_cons.2 (Or.inr h')))

theorem pyMin_le_seed (x : FieldVal) (xs : List FieldVal) : fvLe (pyMin x xs) x := by
  induction xs generalizing x with
  | nil => exact Or.inl rfl
  | cons z zs ih =>
    rw [pyMin_cons]
    by_cases h : fvLt z x = true
    · rw [if_pos h]
      exact fvLe_trans _ z x (ih z) (Or.inr h)
    · rw [if_neg h]
      exact ih x

theorem pyMin_is_min (x : FieldVal) (xs : List FieldVal) :
    ∀ y ∈ x :: xs, fvLt y (pyMin x xs) = false := by
  induction xs generalizing x with
  | nil =>
    intro y hy
    rcases List.mem_cons.1 hy with rfl | h
    · exact fvLt_irrefl y
    · cases h
  | cons z zs ih =>
    intro y hy
    rw [pyMin_cons]
    by_cases h : fvLt z x = true
    · rw [if_pos h]
      rcases List.mem_cons.1 hy with rfl | hmem
      · -- y = x: the seed was replaced by z with fvLt z x
        cases hc : fvLt y (pyMin z zs)
        · rfl
        · exfalso
          have hle : fvLe (pyMin z zs) z := pyMin_le_seed z zs
          have : fvLt y z = true := by
            rcases hle with he | hlt
            · rw [← he]; exact hc
            · exact fvLt_trans y (pyMin z zs) z hc hlt
          have hyy : fvLt y y = true := fvLt_trans y z y this h
          rw [fvLt_irrefl] at hyy
          cases hyy
      · exact ih z y hmem
    · rw [if_neg h]
      rcases List.mem_cons.1 hy with hyx | hmem
      · rw [hyx]
        exact ih x x (List.mem_cons_self x zs)
      · rcases List.mem_cons.1 hmem with hyz | hzs
        · -- y = z with fvLt z x = false
          cases hc : fvLt y (pyMin x zs)
          · rfl
          · exfalso
            have hle : fvLe (pyMin x zs) x := pyMin_le_seed x zs
            have hlt2 : fvLt y x = true := by
              rcases hle with he | hlt
              · rw [← he]; exact hc
              · exact fvLt_trans y (pyMin x zs) x hc hlt
            rw [hyz] at hlt2
            exact h hlt2
        · exact ih x y (List.mem_cons.2 (Or.inr hzs))

theorem pyMax_mem (x : FieldVal) (xs : List FieldVal) : pyMax x xs ∈ x :: xs := by
  induction xs generalizing x with
  | nil => simp
  | cons z zs ih =>
    rw [pyMax_cons]
    by_cases h : fvLt x z = true
    · rw [if_pos h]
      rcases List.mem_cons.1 (ih z) with h' | h'
      · exact List.mem_cons.2 (Or.inr (List.mem_cons.2 (Or.inl h')))
      · exact List.mem_cons.2 (Or.inr (List.mem_cons.2 (Or.inr h')))
    · rw [if_neg h]
      rcases List.mem_cons.1 (ih x) with h' | h'
      · exact List.mem_cons.2 (Or.inl h')
      · exact List.mem_cons.2 (Or.inr (List.mem_cons.2 (Or.inr h')))

theorem pyMax_ge_seed (x : FieldVal) (xs : List FieldVal) : fvLe x (pyMax x xs) := by
  induction xs generalizing x with
  | nil => exact Or.inl rfl
  | cons z zs ih =>
    rw [pyMax_cons]
    by_cases h : fvLt x z = true
    · rw [if_pos h]
      exact fvLe_trans x z _ (Or.inr h) (ih z)
    · rw [if_neg h]
      exact ih x

theorem pyMax_is_max (x : FieldVal) (xs : List FieldVal) :
    ∀ y ∈ x :: xs, fvLt (pyMax x xs) y = false := by
  induction xs generalizing x with
  | nil =>
    intro y hy
    rcases List.mem_cons.1 hy with rfl | h
    · exact fvLt_irrefl y
    · cases h
  | cons z zs ih =>
    intro y hy
    rw [pyMax_cons]
    by_cases h : fvLt x z = true
    · rw [if_pos h]
      rcases List.mem_cons.1 hy with rfl | hmem
      · cases hc : fvLt (pyMax z zs) y
        · rfl
        · exfalso
          have hge : fvLe z (pyMax z zs) := pyMax_ge_seed z zs
          have : fvLt z y = true := by
            rcases hge with he | hlt
            · rw [he]; exact hc
            · exact fvLt_trans z (pyMax z zs) y hlt hc
          have hyy : fvLt y y = true := fvLt_trans y z y h this
          rw [fvLt_irrefl] at hyy
          cases hyy
      · exact ih z y hmem
    · rw [if_neg h]
      rcases List.mem_cons.1 hy with hyx | hmem
      · rw [hyx]
        exact ih x x (List.mem_cons_self x zs)
      · rcases List.mem_cons.1 hmem with hyz | hzs
        · cases hc : fvLt (pyMax x zs) y
          · rfl
          · exfalso
            have hge : fvLe x (pyMax x zs) := pyMax_ge_seed x zs
            have hlt2 : fvLt x y = true := by
              rcases hge with he | hlt
              · rw [he]; exact hc
              · exact fvLt_trans x (pyMax x zs) y hlt hc
            rw [hyz] at hlt2
            exact h hlt2
        · exact ih x y (List.mem_cons.2 (Or.inr hzs))

/-- Claim C9: `find_sequence_range` falls back to
`sequence_range_from_path` exactly when no template matches the path or
the matched template's fields lack a `SEQ` entry; when a matching
template with a `SEQ` field exists it returns the minimum and maximum
(in Python's ordering) of the frame values enumerated through the
template system — `None` when that enumeration is empty. -/
theorem find_sequence_range_spec {T : Type} (env : Tk T) (path : String) :
    (env.template_from_path path = none →
      find_sequence_range env path = sequence_range_from_path path) ∧
    (∀ t : T, env.template_from_path path = some t →
      lookupD (env.get_fields t path) "SEQ" = none →
      find_sequence_range env path = sequence_range_from_path path) ∧
    (∀ t : T, env.template_from_path path = some t →
      (lookupD (env.get_fields t path) "SEQ").isSome = true →
      (collectFrames env t (env.get_fields t path) = [] →
        find_sequence_range env path = .ok none) ∧
      (∀ f : FieldVal, ∀ fs : List FieldVal,
        collectFrames env t (env.get_fields t path) = f :: fs →
        ∃ lo hi : FieldVal,
          find_sequence_range env path = .ok (some (lo, hi)) ∧
          lo ∈ f :: fs ∧ hi ∈ f :: fs ∧
          (∀ y ∈ f :: fs, fvLt y lo = false ∧ fvLt hi y = false))) := by
  refine ⟨?_, ?_, ?_⟩
  · intro h
    unfold find_sequence_range
    rw [h]
  · intro t ht hseq
    unfold find_sequence_range
    rw [ht]
    simp only [hseq, Option.isSome_none, Bool.false_eq_true, if_false]
  · intro t ht hseq
    constructor
    · intro hframes
      unfold find_sequence_range
      rw [ht]
      simp only [hseq, if_true]
      rw [hframes]
    · intro f fs hframes
      refine ⟨pyMin f fs, pyMax f fs, ?_, pyMin_mem f fs, pyMax_mem f fs, ?_⟩
      · unfold find_sequence_range
        rw [ht]
        simp only [hseq, if_true]
        rw [hframes]
      · intro y hy
        exact ⟨pyMin_is_min f fs y hy, pyMax_is_max f fs y hy⟩

/-- Witness for `find_sequence_range_spec`: the fallback fires on a
no-template system, and on `rangeTk` the enumerated frames 1 and 5 give
the pair (min, max). -/
theorem find_sequence_range_spec_witness :
    (noTemplateRangeTk.template_from_path "clip.mov" = none ∧
      find_sequence_range noTemplateRangeTk "clip.mov" = sequence_range_from_path "clip.mov") ∧
    (rangeTk.template_from_path "a.3" = some () ∧
      (lookupD (rangeTk.get_fields () "a.3") "SEQ").isSome = true ∧
      collectFrames rangeTk () (rangeTk.get_fields () "a.3") = [.intVal 1, .intVal 5] ∧
      ∃ lo hi : FieldVal,
        find_sequence_range rangeTk "a.3" = .ok (some (lo, hi)) ∧
        lo ∈ [FieldVal.intVal 1, FieldVal.intVal 5] ∧
        hi ∈ [FieldVal.intVal 1, FieldVal.intVal 5] ∧
        (∀ y ∈ [FieldVal.intVal 1, FieldVal.intVal 5],
          fvLt y lo = false ∧ fvLt hi y = false)) := by
  refine ⟨⟨rfl, (find_sequence_range_spec noTemplateRangeTk "clip.mov").1 rfl⟩,
    rfl, rfl, rfl, ?_⟩
  exact ((find_sequence_range_spec rangeTk "a.3").2.2 () rfl rfl).2
    (.intVal 1) [.intVal 5] rfl

/-! ## Theorems: `seq_path_from_silhouette_format` field stripping -/

theorem foldl_cond_removeKey {α : Type u} (p : String × α → Bool) :
    ∀ (snapshot : List (String × α)) (acc : List (String × α)),
      snapshot.foldl (fun fs kv => if p kv = true then removeKey fs kv.1 else fs) acc =
        acc.filter (fun kv2 => !(snapshot.any (fun kv => p kv && (kv.1 == kv2.1)))) := by
  intro snapshot
  induction snapshot with
  | nil =>
    intro acc
    simp
  | cons kv rest ih =>
    intro acc
    simp only [List.foldl_cons]
    by_cases hp : p kv = true
    · rw [if_pos hp, ih]
      unfold removeKey
      rw [List.filter_filter]
      apply List.filter_congr
      intro kv2 _
      by_cases hk : kv.1 = kv2.1
      · simp [List.any_cons, hp, hk]
      · have hk2 : ¬ kv2.1 = kv.1 := fun he => hk he.symm
        have h1 : (kv.1 == kv2.1) = false := by simp [hk]
        have h2 : (kv2.1 == kv.1) = false := by simp [hk2]
        simp [List.any_cons, hp, h1, h2, bne]
    · rw [if_neg hp, ih]
      apply List.filter_congr
      intro kv2 _
      have hp' : p kv = false := by
        cases hv : p kv
        · rfl
        · exact absurd hv hp
      simp [List.any_cons, hp']

theorem stripFrameFields_eq_filter (fields : List (String × FieldVal)) (ff : Int)
    (hwf : (keysD fields).Nodup) :
    stripFrameFields fields ff = fields.filter (fun kv => !(fvEqInt kv.2 ff)) := by
  unfold stripFrameFields
  rw [show (fun (fs : List (String × FieldVal)) (kv : String × FieldVal) =>
      if fvEqInt kv.2 ff = true then removeKey fs kv.1 else fs) =
      (fun fs kv => if (fun (kv : String × FieldVal) => fvEqInt kv.2 ff) kv = true
        then removeKey fs kv.1 else fs) from rfl]
  rw [foldl_cond_removeKey]
  apply List.filter_congr
  intro kv2 hmem
  cases hv : fvEqInt kv2.2 ff
  · -- no entry with the same key has an equal value, because keys are unique
    have hany : (fields.any fun kv => fvEqInt kv.2 ff && (kv.1 == kv2.1)) = false := by
      rw [← Bool.not_eq_true]
      intro hany
      obtain ⟨kv, hkvmem, hkv⟩ := List.any_eq_true.1 hany
      have hkeq : kv.1 = kv2.1 := by
        have := (Bool.and_eq_true _ _ ▸ hkv : _ ∧ _).2
        exact eq_of_beq this
      have hsame : kv = kv2 :=
        List.inj_on_of_nodup_map (by simpa [keysD] using hwf) hkvmem hmem hkeq
      rw [hsame] at hkv
      have := (Bool.and_eq_true _ _ ▸ hkv : _ ∧ _).1
      rw [hv] at this
      cases this
    rw [hany]
  · have hany : (fields.any fun kv => fvEqInt kv.2 ff && (kv.1 == kv2.1)) = true :=
      List.any_eq_true.2 ⟨kv2, hmem, by simp [hv]⟩
    rw [hany]

/-- Counterexample to claim C4 as stated: on `a.[1-3].b` under `c4Env`
the source deletes the `version` field too (its value coincides with the
first frame), so its output differs from the strip-only-`SEQ` behaviour
the claim describes. -/
theorem seq_path_from_strip_seq_only_refuted :
    seq_path_from_silhouette_format c4Env "a.[1-3].b" = ("dropped-version", none) ∧
    seq_path_from_strip_seq_only c4Env "a.[1-3].b" = ("kept-version", none) ∧
    seq_path_from_silhouette_format c4Env "a.[1-3].b" ≠
      seq_path_from_strip_seq_only c4Env "a.[1-3].b" := by
  refine ⟨by decide, by decide, by decide⟩

/-- Claim C4 amended: for every bracketed path that resolves to a
template, `seq_path_from_silhouette_format` substitutes the first frame,
resolves the single-frame path, strips EVERY field whose value equals
the first frame (not only the sequence key), and reapplies the rest —
provided the resolved field dicts have unique keys, as Python dicts do. -/
theorem seq_path_from_silhouette_format_strips_all {T : Type} (env : Tk T) (path : String)
    (hwf : ∀ (t : T) (p : String), (keysD (env.get_fields t p)).Nodup) :
    seq_path_from_silhouette_format env path = seq_path_from_strip_all env path := by
  unfold seq_path_from_silhouette_format seq_path_from_strip_all
  split
  · rfl
  · dsimp only
    split
    · rfl
    · rw [stripFrameFields_eq_filter _ _ (hwf _ _)]

/-- Witness for `seq_path_from_silhouette_format_strips_all` at the
concrete system `c4Env` and path `a.[1-3].b`. -/
theorem seq_path_from_silhouette_format_strips_all_witness :
    (∀ (t : Unit) (p : String), (keysD (c4Env.get_fields t p)).Nodup) ∧
    seq_path_from_silhouette_format c4Env "a.[1-3].b" =
      seq_path_from_strip_all c4Env "a.[1-3].b" := by
  have hwf : ∀ (t : Unit) (p : String), (keysD (c4Env.get_fields t p)).Nodup := by
    intro t p
    show (keysD [("SEQ", FieldVal.intVal 1), ("version", FieldVal.intVal 1)]).Nodup
    decide
  exact ⟨hwf, seq_path_from_silhouette_format_strips_all c4Env "a.[1-3].b" hwf⟩

/-! ## Theorems: the sequence-path round trip -/

/-- Claim C5: on a path whose template resolves a string-valued `SEQ`
token, converting to the silhouette bracket format and back is the
identity on the resolved field values, under the stable-template /
consistent-frame-set conditions:

* the path resolves to template `t` with `SEQ` token `seqtok` (`h1`,`h2`);
* range discovery yields integer frames `a..b` (`h3`);
* in the produced bracket path the silhouette pattern finds exactly the
  first frame back (`h4`,`h5`), and the single-frame path it builds
  resolves to the same template (`h6`);
* re-applying the surviving fields yields a path that resolves to the
  original field values (`h7` — template-system coherence). -/
theorem seq_path_roundtrip {T : Type} (env : Tk T) (t : T) (path seqtok : String)
    (a b : Int) (d1 : List Char)
    (h1 : env.template_from_path path = some t)
    (h2 : lookupD (env.get_fields t path) "SEQ" = some (.strVal seqtok))
    (h3 : find_sequence_range env path = .ok (some (.intVal a, .intVal b)))
    (h4 : silhouetteSearch
      (pyReplace path seqtok ("[" ++ toString a ++ "-" ++ toString b ++ "]")).toList =
      some d1)
    (h5 : ((digitsToNat d1 : Nat) : Int) = a)
    (h6 : env.template_from_path
      (String.mk (silhouetteSub
        (pyReplace path seqtok ("[" ++ toString a ++ "-" ++ toString b ++ "]")).toList)) =
      some t)
    (h7 : env.get_fields t
      (env.apply_fields t
        (stripFrameFields
          (env.get_fields t
            (String.mk (silhouetteSub
              (pyReplace path seqtok
                ("[" ++ toString a ++ "-" ++ toString b ++ "]")).toList))) a)) =
      env.get_fields t path) :
    seq_path_to_silhouette_format env path =
      .ok (pyReplace path seqtok ("[" ++ toString a ++ "-" ++ toString b ++ "]"), none) ∧
    (seq_path_from_silhouette_format env
      (pyReplace path seqtok ("[" ++ toString a ++ "-" ++ toString b ++ "]"))).2 = none ∧
    env.get_fields t
      (seq_path_from_silhouette_format env
        (pyReplace path seqtok ("[" ++ toString a ++ "-" ++ toString b ++ "]"))).1 =
      env.get_fields t path := by
  have hto : seq_path_to_silhouette_format env path =
      .ok (pyReplace path seqtok ("[" ++ toString a ++ "-" ++ toString b ++ "]"), none) := by
    unfold seq_path_to_silhouette_format
    rw [h1]
    dsimp only
    rw [h2, h3]
    rfl
  have hfrom : seq_path_from_silhouette_format env
      (pyReplace path seqtok ("[" ++ toString a ++ "-" ++ toString b ++ "]")) =
      (env.apply_fields t
        (stripFrameFields
          (env.get_fields t
            (String.mk (silhouetteSub
              (pyReplace path seqtok
                ("[" ++ toString a ++ "-" ++ toString b ++ "]")).toList))) a), none) := by
    unfold seq_path_from_silhouette_format
    rw [h4]
    dsimp only
    rw [h6, h5]
  refine ⟨hto, ?_, ?_⟩
  · rw [hfrom]
  · rw [hfrom]
    exact h7

/-- Witness for `seq_path_roundtrip`: the keyed path `plate.%04d.exr`
becomes `plate.[1-20].exr` and converts back to a path with the same
resolved fields. -/
theorem seq_path_roundtrip_witness :
    roundTk.template_from_path "plate.%04d.exr" = some () ∧
    lookupD (roundTk.get_fields () "plate.%04d.exr") "SEQ" = some (.strVal "%04d") ∧
    find_sequence_range roundTk "plate.%04d.exr" = .ok (some (.intVal 1, .intVal 20)) ∧
    seq_path_to_silhouette_format roundTk "plate.%04d.exr" =
      .ok (pyReplace "plate.%04d.exr" "%04d" ("[" ++ toString (1 : Int) ++ "-" ++ toString (20 : Int) ++ "]"), none) ∧
    roundTk.get_fields ()
      (seq_path_from_silhouette_format roundTk
        (pyReplace "plate.%04d.exr" "%04d" ("[" ++ toString (1 : Int) ++ "-" ++ toString (20 : Int) ++ "]"))).1 =
      roundTk.get_fields () "plate.%04d.exr" := by
  have h := seq_path_roundtrip roundTk () "plate.%04d.exr" "%04d" 1 20 ['1']
    rfl rfl rfl rfl rfl rfl rfl
  exact ⟨rfl, rfl, rfl, h.1, h.2.2⟩

/-! ## Engine lemmas: keys, filters and registration -/

theorem contains_iff_mem (l : List String) (a : String) :
    l.contains a = true ↔ a ∈ l :=
  List.elem_iff

theorem contains_eq_false_iff (l : List String) (a : String) :
    l.contains a = false ↔ ¬ a ∈ l := by
  rw [← contains_iff_mem l a]
  cases l.contains a <;> simp

theorem keysD_filter_key {α : Type u} (d : List (String × α)) (p : String → Bool) :
    keysD (d.filter (fun kv => p kv.1)) = (keysD d).filter p := by
  induction d with
  | nil => simp
  | cons kv rest ih =>
    rw [List.filter_cons]
    cases hp : p kv.1
    · simp only [Bool.false_eq_true, if_false, ih, keysD_cons, List.filter_cons, hp]
    · simp only [if_true, keysD_cons, ih, List.filter_cons, hp]

theorem lookupD_filter_key_true {α : Type u} (d : List (String × α)) (p : String → Bool)
    (n : String) (hp : p n = true) :
    lookupD (d.filter (fun kv => p kv.1)) n = lookupD d n := by
  induction d with
  | nil => simp
  | cons kv rest ih =>
    rw [List.filter_cons]
    by_cases hk : kv.1 = n
    · rw [hk, hp]
      simp [lookupD, hk]
    · cases hkv : p kv.1
      · simp only [Bool.false_eq_true, if_false, ih]
        simp [lookupD, hk]
      · simp only [if_true, lookupD, hk, if_false, ih]

theorem lookupD_filter_key_false {α : Type u} (d : List (String × α)) (p : String → Bool)
    (n : String) (hp : p n = false) :
    lookupD (d.filter (fun kv => p kv.1)) n = none := by
  induction d with
  | nil => simp [lookupD]
  | cons kv rest ih =>
    rw [List.filter_cons]
    by_cases hk : kv.1 = n
    · rw [hk, hp]
      simp only [Bool.false_eq_true, if_false]
      exact ih
    · cases hkv : p kv.1
      · simp only [Bool.false_eq_true, if_false]
        exact ih
      · simp only [if_true, lookupD, hk, if_false]
        exact ih

theorem lookupD_eq_none_of_not_mem_keysD {α : Type u} (d : List (String × α)) (n : String)
    (h : ¬ n ∈ keysD d) : lookupD d n = none := by
  cases hl : lookupD d n with
  | none => rfl
  | some v =>
    exfalso
    exact h ((lookupD_isSome_iff_mem_keysD d n).1 (by simp [hl]))

theorem nodup_keysD_dictSet {α : Type u} (d : List (String × α)) (k : String) (v : α)
    (h : (keysD d).Nodup) : (keysD (dictSet d k v)).Nodup := by
  by_cases hm : (lookupD d k).isSome
  · rw [keysD_dictSet_of_mem d k v hm]
    exact h
  · rw [keysD_dictSet_of_not_mem d k v hm]
    have hnk : ¬ k ∈ keysD d := fun hk =>
      hm ((lookupD_isSome_iff_mem_keysD d k).2 hk)
    rw [List.nodup_append]
    exact ⟨h, List.nodup_singleton k, by simpa [List.disjoint_singleton] using hnk⟩

/-- `registerAll` appends a block of fresh keys (each registered name
either overwrites an existing entry in place or is appended once). -/
theorem registerAll_keys (added : List (String × Command)) :
    ∀ cmds : List (String × Command),
      ∃ ns : List String,
        keysD (registerAll cmds added) = keysD cmds ++ ns ∧
        ns.Nodup ∧
        (∀ n ∈ ns, ¬ n ∈ keysD cmds) ∧
        (∀ n ∈ ns, ∃ kv ∈ added, kv.1 = n) := by
  induction added with
  | nil =>
    intro cmds
    exact ⟨[], by simp [registerAll], List.nodup_nil, by simp, by simp⟩
  | cons kv rest ih =>
    intro cmds
    have hstep : registerAll cmds (kv :: rest) = registerAll (dictSet cmds kv.1 kv.2) rest := rfl
    by_cases hm : (lookupD cmds kv.1).isSome
    · obtain ⟨ns, hk, hnd, hfresh, hsub⟩ := ih (dictSet cmds kv.1 kv.2)
      rw [keysD_dictSet_of_mem cmds kv.1 kv.2 hm] at hk hfresh
      exact ⟨ns, by rw [hstep, hk], hnd, hfresh,
        fun n hn => (hsub n hn).imp (fun kv2 h2 => ⟨List.mem_cons.2 (Or.inr h2.1), h2.2⟩)⟩
    · obtain ⟨ns, hk, hnd, hfresh, hsub⟩ := ih (dictSet cmds kv.1 kv.2)
      rw [keysD_dictSet_of_not_mem cmds kv.1 kv.2 hm] at hk hfresh
      have hknotin : ¬ kv.1 ∈ keysD cmds := fun hmem =>
        hm ((lookupD_isSome_iff_mem_keysD cmds kv.1).2 hmem)
      refine ⟨kv.1 :: ns, ?_, ?_, ?_, ?_⟩
      · rw [hstep, hk, List.append_assoc]
        rfl
      · rw [List.nodup_cons]
        refine ⟨fun hmem => ?_, hnd⟩
        exact hfresh kv.1 hmem (List.mem_append.2 (Or.inr (List.mem_singleton.2 rfl)))
      · intro n hn
        rcases List.mem_cons.1 hn with rfl | hns
        · exact hknotin
        · exact fun hmem => hfresh n hns (List.mem_append.2 (Or.inl hmem))
      · intro n hn
        rcases List.mem_cons.1 hn with rfl | hns
        · exact ⟨kv, List.mem_cons_self kv rest, rfl⟩
        · exact (hsub n hns).imp (fun kv2 h2 => ⟨List.mem_cons.2 (Or.inr h2.1), h2.2⟩)

theorem registerAll_lookup_not_added (added : List (String × Command)) :
    ∀ (cmds : List (String × Command)) (n : String),
      (∀ kv ∈ added, kv.1 ≠ n) →
      lookupD (registerAll cmds added) n = lookupD cmds n := by
  induction added with
  | nil => intro cmds n _; rfl
  | cons kv rest ih =>
    intro cmds n hne
    have hstep : registerAll cmds (kv :: rest) = registerAll (dictSet cmds kv.1 kv.2) rest := rfl
    rw [hstep, ih (dictSet cmds kv.1 kv.2) n (fun kv2 h2 => hne kv2 (List.mem_cons.2 (Or.inr h2)))]
    exact lookupD_dictSet_ne cmds kv.1 n kv.2
      (fun he => hne kv (List.mem_cons_self kv rest) he.symm)

/-- The registry side of the move loop: every listed name is popped. -/
theorem moveNewCommands_snd (names : List String) :
    ∀ tw cmds : List (String × Command),
      (moveNewCommands tw cmds names).2 =
        cmds.filter (fun kv => !names.contains kv.1) := by
  induction names with
  | nil =>
    intro tw cmds
    simp [moveNewCommands]
  | cons n rest ih =>
    intro tw cmds
    have hstep : (moveNewCommands tw cmds (n :: rest)) =
        moveNewCommands
          (match lookupD cmds n with
           | some c => dictSet tw n c
           | none => tw)
          (removeKey cmds n) rest := by
      unfold moveNewCommands
      rw [List.foldl_cons]
      cases hl : lookupD cmds n <;> simp only [hl]
    rw [hstep, ih]
    unfold removeKey
    rw [List.filter_filter]
    apply List.filter_congr
    intro kv _
    by_cases hk : kv.1 = n
    · simp [List.contains_cons, hk]
    · have h1 : (kv.1 == n) = false := by simp [hk]
      simp [List.contains_cons, h1, bne]
      exact fun _ => hk

/-- Accumulator entries under names not in the move list are untouched. -/
theorem moveNewCommands_fst_not_mem (names : List String) :
    ∀ (tw cmds : List (String × Command)) (n : String), ¬ n ∈ names →
      lookupD (moveNewCommands tw cmds names).1 n = lookupD tw n := by
  induction names with
  | nil => intro tw cmds n _; rfl
  | cons m rest ih =>
    intro tw cmds n hn
    have hnm : n ≠ m := fun he => hn (List.mem_cons.2 (Or.inl he))
    have hnr : ¬ n ∈ rest := fun he => hn (List.mem_cons.2 (Or.inr he))
    have hstep : (moveNewCommands tw cmds (m :: rest)) =
        moveNewCommands
          (match lookupD cmds m with
           | some c => dictSet tw m c
           | none => tw)
          (removeKey cmds m) rest := by
      unfold moveNewCommands
      rw [List.foldl_cons]
      cases hl : lookupD cmds m <;> simp only [hl]
    rw [hstep, ih _ _ n hnr]
    cases lookupD cmds m with
    | none => rfl
    | some c => exact lookupD_dictSet_ne tw m n c hnm

/-- Every listed name receives, in the accumulator, the registry value
it had when the loop reached it (names are distinct and present). -/
theorem moveNewCommands_fst_mem (names : List String) :
    ∀ tw cmds : List (String × Command), names.Nodup →
      (∀ m ∈ names, (lookupD cmds m).isSome) →
      ∀ n ∈ names, lookupD (moveNewCommands tw cmds names).1 n = lookupD cmds n := by
  induction names with
  | nil => intro tw cmds _ _ n hn; cases hn
  | cons m rest ih =>
    intro tw cmds hnd hsome n hn
    obtain ⟨c, hc⟩ := Option.isSome_iff_exists.1 (hsome m (List.mem_cons_self m rest))
    have hstep : (moveNewCommands tw cmds (m :: rest)) =
        moveNewCommands (dictSet tw m c) (removeKey cmds m) rest := by
      unfold moveNewCommands
      rw [List.foldl_cons]
      simp only [hc]
    have hmrest : ¬ m ∈ rest := (List.nodup_cons.1 hnd).1
    rcases List.mem_cons.1 hn with rfl | hnr
    · rw [hstep, moveNewCommands_fst_not_mem rest _ _ n hmrest,
        lookupD_dictSet_self, hc]
    · have hnm : n ≠ m := fun he => hmrest (by rw [← he]; exact hnr)
      rw [hstep, ih (dictSet tw m c) (removeKey cmds m) (List.nodup_cons.1 hnd).2 ?_ n hnr,
        lookupD_removeKey, if_neg hnm]
      intro m2 hm2
      rw [lookupD_removeKey, if_neg (fun he => hmrest (by rw [← he]; exact hm2))]
      exact hsome m2 (List.mem_cons.2 (Or.inr hm2))

/-- Claim C10 amended: after a transient app's load + init attempt
(`init_app` registering `added`, failing or not — the `finally` block
runs either way), the registry's KEY SET is restored to its snapshot,
every command under a genuinely new name is moved out of the registry
into the accumulator, and the app is destroyed; commands the app
registered under names already present are NOT restored — they replace
the session's entries in the registry in place. -/
theorem processApp_finally (active : List String) (st : MenuLoopState) (nm : String)
    (added : List (String × Command)) (b : Bool)
    (hact : active.contains nm = false) :
    keysD (processApp active st ⟨nm, .loaded added b⟩).commands = keysD st.commands ∧
    (∀ n, n ∈ keysD st.commands →
      lookupD (processApp active st ⟨nm, .loaded added b⟩).commands n =
        lookupD (registerAll st.commands added) n ∧
      lookupD (processApp active st ⟨nm, .loaded added b⟩).to_write n =
        lookupD st.to_write n) ∧
    (∀ n, ¬ n ∈ keysD st.commands → n ∈ keysD (registerAll st.commands added) →
      lookupD (processApp active st ⟨nm, .loaded added b⟩).to_write n =
        lookupD (registerAll st.commands added) n ∧
      lookupD (processApp active st ⟨nm, .loaded added b⟩).commands n = none) ∧
    (processApp active st ⟨nm, .loaded added b⟩).destroyed = st.destroyed ++ [nm] := by
  obtain ⟨ns, hk, hnd, hfresh, _⟩ := registerAll_keys added st.commands
  have hres : processApp active st ⟨nm, .loaded added b⟩ =
      { commands := (moveNewCommands st.to_write (registerAll st.commands added)
          ((keysD (registerAll st.commands added)).filter
            (fun n => !(keysD st.commands).contains n))).2
        to_write := (moveNewCommands st.to_write (registerAll st.commands added)
          ((keysD (registerAll st.commands added)).filter
            (fun n => !(keysD st.commands).contains n))).1
        destroyed := st.destroyed ++ [nm] } := by
    unfold processApp
    rw [hact]
    rfl
  have hnames : (keysD (registerAll st.commands added)).filter
      (fun n => !(keysD st.commands).contains n) = ns := by
    rw [hk, List.filter_append]
    have h1 : (keysD st.commands).filter (fun n => !(keysD st.commands).contains n) = [] := by
      rw [List.filter_eq_nil_iff]
      intro a ha
      simp [contains_iff_mem, ha]
    have h2 : ns.filter (fun n => !(keysD st.commands).contains n) = ns := by
      rw [List.filter_eq_self]
      intro a ha
      simp [contains_eq_false_iff, hfresh a ha]
    rw [h1, h2, List.nil_append]
  rw [hres, hnames] at *
  have hsnd := moveNewCommands_snd ns st.to_write (registerAll st.commands added)
  have hnotin_old : ∀ n ∈ keysD st.commands, ¬ n ∈ ns := fun n hn hns => hfresh n hns hn
  refine ⟨?_, ?_, ?_, rfl⟩
  · -- key set restored
    show keysD ((moveNewCommands st.to_write (registerAll st.commands added) ns).2) =
      keysD st.commands
    rw [hsnd]
    have heq : (fun kv : String × Command => !ns.contains kv.1) =
        (fun kv : String × Command => (fun n => !ns.contains n) kv.1) := rfl
    rw [heq, keysD_filter_key (registerAll st.commands added) (fun n => !ns.contains n),
      hk, List.filter_append]
    have h1 : (keysD st.commands).filter (fun n => !ns.contains n) = keysD st.commands := by
      rw [List.filter_eq_self]
      intro a ha
      simp [contains_eq_false_iff, hnotin_old a ha]
    have h2 : ns.filter (fun n => !ns.contains n) = [] := by
      rw [List.filter_eq_nil_iff]
      intro a ha
      simp [contains_iff_mem, ha]
    rw [h1, h2, List.append_nil]
  · intro n hn
    have hnns : ¬ n ∈ ns := hnotin_old n hn
    have hc : ns.contains n = false := (contains_eq_false_iff ns n).2 hnns
    constructor
    · show lookupD ((moveNewCommands st.to_write (registerAll st.commands added) ns).2) n = _
      rw [hsnd]
      have heq : (fun kv : String × Command => !ns.contains kv.1) =
          (fun kv : String × Command => (fun m => !ns.contains m) kv.1) := rfl
      rw [heq]
      exact lookupD_filter_key_true (registerAll st.commands added) (fun m => !ns.contains m) n (by simpa using hnns)
    · exact moveNewCommands_fst_not_mem ns st.to_write (registerAll st.commands added) n hnns
  · intro n hnold hncmds
    have hnns : n ∈ ns := by
      rw [hk] at hncmds
      rcases List.mem_append.1 hncmds with h | h
      · exact absurd h hnold
      · exact h
    have hc : ns.contains n = true := (contains_iff_mem ns n).2 hnns
    constructor
    · refine moveNewCommands_fst_mem ns st.to_write (registerAll st.commands added) hnd ?_ n hnns
      intro m hm
      rw [lookupD_isSome_iff_mem_keysD, hk]
      exact List.mem_append.2 (Or.inr hm)
    · show lookupD ((moveNewCommands st.to_write (registerAll st.commands added) ns).2) n = none
      rw [hsnd]
      have heq : (fun kv : String × Command => !ns.contains kv.1) =
          (fun kv : String × Command => (fun m => !ns.contains m) kv.1) := rfl
      rw [heq]
      exact lookupD_filter_key_false (registerAll st.commands added) (fun m => !ns.contains m) n (by simpa using hnns)

/-- Counterexample to claim C10 as stated: a transient app registering
`foo` while the session already has a command `foo` leaves the registry
CHANGED after the `finally` block (the app's version replaced the
session's own in place, and nothing was moved to the accumulator). -/
theorem processApp_restore_refuted :
    (processApp []
      { commands := [("foo", ⟨none, 3⟩)], to_write := [], destroyed := [] }
      ⟨"appX", .loaded [("foo", ⟨none, 7⟩)] false⟩).commands = [("foo", ⟨none, 7⟩)] ∧
    (processApp []
      { commands := [("foo", ⟨none, 3⟩)], to_write := [], destroyed := [] }
      ⟨"appX", .loaded [("foo", ⟨none, 7⟩)] false⟩).commands ≠ [("foo", ⟨none, 3⟩)] ∧
    (processApp []
      { commands := [("foo", ⟨none, 3⟩)], to_write := [], destroyed := [] }
      ⟨"appX", .loaded [("foo", ⟨none, 7⟩)] false⟩).to_write = [] := by
  refine ⟨by decide, by decide, by decide⟩

/-- Witness for `processApp_finally` at a concrete state: an inactive
app `app1` adds a command under the fresh name `b`. -/
theorem processApp_finally_witness :
    (([] : List String).contains "app1" = false) ∧
    keysD (processApp []
      { commands := [("a", ⟨some "sa", 0⟩)], to_write := [], destroyed := [] }
      ⟨"app1", .loaded [("b", ⟨some "sb", 1⟩)] true⟩).commands =
      keysD [("a", (⟨some "sa", 0⟩ : Command))] ∧
    (processApp []
      { commands := [("a", ⟨some "sa", 0⟩)], to_write := [], destroyed := [] }
      ⟨"app1", .loaded [("b", ⟨some "sb", 1⟩)] true⟩).destroyed = [] ++ ["app1"] := by
  have h := processApp_finally []
    { commands := [("a", ⟨some "sa", 0⟩)], to_write := [], destroyed := [] }
    "app1" [("b", ⟨some "sb", 1⟩)] true (by decide)
  exact ⟨by decide, h.1, h.2.2.2⟩

/-! ## Engine lemmas: per-app and loop-level preservation -/

theorem processApp_skip (active : List String) (st : MenuLoopState) (app : AppSpec)
    (h : active.contains app.name = true) : processApp active st app = st := by
  unfold processApp
  rw [h]
  rfl

theorem processApp_loadError (active : List String) (st : MenuLoopState) (nm : String)
    (h : active.contains nm = false) : processApp active st ⟨nm, .loadError⟩ = st := by
  unfold processApp
  rw [h]
  rfl

theorem processApp_loaded_eq (active : List String) (st : MenuLoopState) (nm : String)
    (added : List (String × Command)) (b : Bool) (hact : active.contains nm = false) :
    processApp active st ⟨nm, .loaded added b⟩ =
      { commands := (moveNewCommands st.to_write (registerAll st.commands added)
          ((keysD (registerAll st.commands added)).filter
            (fun n => !(keysD st.commands).contains n))).2
        to_write := (moveNewCommands st.to_write (registerAll st.commands added)
          ((keysD (registerAll st.commands added)).filter
            (fun n => !(keysD st.commands).contains n))).1
        destroyed := st.destroyed ++ [nm] } := by
  unfold processApp
  rw [hact]
  rfl

theorem filter_not_contains_self (ys : List String) :
    ys.filter (fun n => !ys.contains n) = [] := by
  rw [List.filter_eq_nil_iff]
  intro a ha
  simp [contains_iff_mem, ha]

theorem filter_not_contains_of_disjoint (xs ys : List String)
    (h : ∀ n ∈ xs, ¬ n ∈ ys) : xs.filter (fun n => !ys.contains n) = xs := by
  rw [List.filter_eq_self]
  intro a ha
  simp [contains_eq_false_iff, h a ha]

theorem filter_append_fresh (old ns : List String) (hfresh : ∀ n ∈ ns, ¬ n ∈ old) :
    (old ++ ns).filter (fun n => !old.contains n) = ns := by
  rw [List.filter_append, filter_not_contains_self old,
    filter_not_contains_of_disjoint ns old hfresh, List.nil_append]

theorem bool_not_true_eq_false {b : Bool} (h : ¬ b = true) : b = false := by
  cases b
  · rfl
  · exact absurd rfl h

theorem processApp_keys (active : List String) (st : MenuLoopState) (app : AppSpec) :
    keysD (processApp active st app).commands = keysD st.commands := by
  by_cases hact : active.contains app.name = true
  · rw [processApp_skip active st app hact]
  · obtain ⟨nm, res⟩ := app
    have hact' : active.contains nm = false := bool_not_true_eq_false hact
    cases res with
    | loadError => rw [processApp_loadError active st nm hact']
    | loaded added b =>
      obtain ⟨ns, hk, hnd, hfresh, _⟩ := registerAll_keys added st.commands
      rw [processApp_loaded_eq active st nm added b hact']
      show keysD ((moveNewCommands st.to_write (registerAll st.commands added)
        ((keysD (registerAll st.commands added)).filter
          (fun n => !(keysD st.commands).contains n))).2) = keysD st.commands
      rw [hk, filter_append_fresh (keysD st.commands) ns hfresh, moveNewCommands_snd]
      have heq : (fun kv : String × Command => !ns.contains kv.1) =
          (fun kv : String × Command => (fun n => !ns.contains n) kv.1) := rfl
      rw [heq, keysD_filter_key (registerAll st.commands added) (fun n => !ns.contains n),
        hk, List.filter_append, filter_not_contains_self ns,
        filter_not_contains_of_disjoint (keysD st.commands) ns
          (fun n hn hns => hfresh n hns hn),
        List.append_nil]

theorem processApp_lookup_preserved (active : List String) (st : MenuLoopState)
    (app : AppSpec) (n : String) (hadd : appAddsName app n = false) :
    lookupD (processApp active st app).commands n = lookupD st.commands n := by
  by_cases hact : active.contains app.name = true
  · rw [processApp_skip active st app hact]
  · obtain ⟨nm, res⟩ := app
    have hact' : active.contains nm = false := bool_not_true_eq_false hact
    cases res with
    | loadError => rw [processApp_loadError active st nm hact']
    | loaded added b =>
      simp only [appAddsName] at hadd
      have hne : ∀ kv ∈ added, kv.1 ≠ n := by
        intro kv hkv he
        have hany : added.any (fun kv => kv.1 == n) = true :=
          List.any_eq_true.2 ⟨kv, hkv, by simp [he]⟩
        rw [hany] at hadd
        cases hadd
      obtain ⟨ns, hk, hnd, hfresh, hsub⟩ := registerAll_keys added st.commands
      have hreg : lookupD (registerAll st.commands added) n = lookupD st.commands n :=
        registerAll_lookup_not_added added st.commands n hne
      have hnns : ¬ n ∈ ns := by
        intro hn
        obtain ⟨kv, hkv, hkv2⟩ := hsub n hn
        exact hne kv hkv hkv2
      rw [processApp_loaded_eq active st nm added b hact']
      show lookupD ((moveNewCommands st.to_write (registerAll st.commands added)
        ((keysD (registerAll st.commands added)).filter
          (fun m => !(keysD st.commands).contains m))).2) n = lookupD st.commands n
      rw [hk, filter_append_fresh (keysD st.commands) ns hfresh, moveNewCommands_snd]
      have heq : (fun kv : String × Command => !ns.contains kv.1) =
          (fun kv : String × Command => (fun m => !ns.contains m) kv.1) := rfl
      rw [heq, lookupD_filter_key_true (registerAll st.commands added)
        (fun m => !ns.contains m) n (by simpa using hnns), hreg]

theorem foldl_processApp_keys (active : List String) (apps : List AppSpec) :
    ∀ st : MenuLoopState,
      keysD ((apps.foldl (processApp active) st).commands) = keysD st.commands := by
  induction apps with
  | nil => intro st; rfl
  | cons app rest ih =>
    intro st
    rw [List.foldl_cons, ih (processApp active st app), processApp_keys]

theorem processEnv_keys (engine_name : String) (active : List String)
    (st : MenuLoopState) (env : EnvSpec) :
    keysD ((processEnv engine_name active st env).commands) = keysD st.commands := by
  unfold processEnv
  by_cases h : env.engines.contains engine_name = true
  · rw [h]
    simp only [if_true]
    exact foldl_processApp_keys active env.apps st
  · rw [bool_not_true_eq_false h]
    rfl

theorem foldl_processEnv_keys (engine_name : String) (active : List String)
    (envs : List EnvSpec) :
    ∀ st : MenuLoopState,
      keysD ((envs.foldl (processEnv engine_name active) st).commands) =
        keysD st.commands := by
  induction envs with
  | nil => intro st; rfl
  | cons env rest ih =>
    intro st
    rw [List.foldl_cons, ih (processEnv engine_name active st env), processEnv_keys]

theorem collect_commands_keys (engine_name : String) (e : EngineState) :
    keysD ((collect_commands engine_name e).commands) = keysD e.commands := by
  unfold collect_commands
  rw [foldl_processEnv_keys]

theorem foldl_processApp_lookup (active : List String) (apps : List AppSpec) (n : String) :
    ∀ st : MenuLoopState, (∀ app ∈ apps, appAddsName app n = false) →
      lookupD ((apps.foldl (processApp active) st).commands) n =
        lookupD st.commands n := by
  induction apps with
  | nil => intro st _; rfl
  | cons app rest ih =>
    intro st h
    rw [List.foldl_cons,
      ih (processApp active st app) (fun a ha => h a (List.mem_cons.2 (Or.inr ha))),
      processApp_lookup_preserved active st app n (h app (List.mem_cons_self app rest))]

theorem processEnv_lookup (engine_name : String) (active : List String)
    (st : MenuLoopState) (env : EnvSpec) (n : String)
    (h : ∀ app ∈ env.apps, appAddsName app n = false) :
    lookupD ((processEnv engine_name active st env).commands) n =
      lookupD st.commands n := by
  unfold processEnv
  by_cases he : env.engines.contains engine_name = true
  · rw [he]
    simp only [if_true]
    exact foldl_processApp_lookup active env.apps n st h
  · rw [bool_not_true_eq_false he]
    rfl

theorem foldl_processEnv_lookup (engine_name : String) (active : List String)
    (envs : List EnvSpec) (n : String) :
    ∀ st : MenuLoopState,
      (∀ env ∈ envs, ∀ app ∈ env.apps, appAddsName app n = false) →
      lookupD ((envs.foldl (processEnv engine_name active) st).commands) n =
        lookupD st.commands n := by
  induction envs with
  | nil => intro st _; rfl
  | cons env rest ih =>
    intro st h
    rw [List.foldl_cons,
      ih (processEnv engine_name active st env)
        (fun e2 he2 => h e2 (List.mem_cons.2 (Or.inr he2))),
      processEnv_lookup engine_name active st env n (h env (List.mem_cons_self env rest))]

theorem collect_commands_lookup (engine_name : String) (e : EngineState) (n : String)
    (h : ∀ env ∈ e.environments, ∀ app ∈ env.apps, appAddsName app n = false) :
    lookupD ((collect_commands engine_name e).commands) n = lookupD e.commands n := by
  unfold collect_commands
  apply foldl_processEnv_lookup
  intro env henv
  exact h env ((List.eraseP_sublist e.environments).mem henv)

theorem lookupD_dictUpdate {α : Type u} (e : List (String × α)) :
    ∀ (d : List (String × α)) (n : String), (keysD e).Nodup →
      lookupD (dictUpdate d e) n =
        match lookupD e n with
        | some v => some v
        | none => lookupD d n := by
  induction e with
  | nil => intro d n _; rfl
  | cons kv rest ih =>
    intro d n hnd
    have hstep : dictUpdate d (kv :: rest) = dictUpdate (dictSet d kv.1 kv.2) rest := rfl
    rw [hstep, ih (dictSet d kv.1 kv.2) n (List.nodup_cons.1 (by simpa using hnd)).2]
    by_cases hk : kv.1 = n
    · have hrest : lookupD rest n = none := by
        apply lookupD_eq_none_of_not_mem_keysD
        rw [← hk]
        exact (List.nodup_cons.1 (by simpa using hnd)).1
      rw [hrest, ← hk, lookupD_dictSet_self]
      simp [lookupD, hk]
    · rw [lookupD_dictSet_ne d kv.1 n kv.2 (fun he => hk he.symm)]
      cases hr : lookupD rest n
      · simp [lookupD, hk, hr]
      · simp [lookupD, hk, hr]

/-- Claim C2 amended: the merge `commands_to_write.update(self.commands)`
gives precedence to whatever the live registry holds at merge time, so
for every name the current session still owns there, the session's
command is the one written.  In particular, when no transient app
re-registered the name during the pass, the currently active
environment's command wins.  (When a transient app did re-register an
existing name, its command replaced the session's in the registry and
is the one written — see the counterexample.) -/
theorem menu_commands_to_write_precedence (engine_name : String) (e : EngineState)
    (n : String) (c : Command) (hwf : (keysD e.commands).Nodup) :
    (lookupD ((collect_commands engine_name e).commands) n = some c →
      lookupD (menu_commands_to_write engine_name e) n = some c) ∧
    (lookupD e.commands n = some c →
      (∀ env ∈ e.environments, ∀ app ∈ env.apps, appAddsName app n = false) →
      lookupD (menu_commands_to_write engine_name e) n = some c) := by
  have hnd : (keysD ((collect_commands engine_name e).commands)).Nodup := by
    rw [collect_commands_keys]
    exact hwf
  have hmain : lookupD ((collect_commands engine_name e).commands) n = some c →
      lookupD (menu_commands_to_write engine_name e) n = some c := by
    intro h
    unfold menu_commands_to_write
    rw [lookupD_dictUpdate ((collect_commands engine_name e).commands)
      ((collect_commands engine_name e).to_write) n hnd, h]
  refine ⟨hmain, ?_⟩
  intro hown hnoadd
  apply hmain
  rw [collect_commands_lookup engine_name e n hnoadd]
  exact hown

/-- Counterexample to claim C2 as stated: the command written for `foo`
is the OTHER environment's (payload 7), not the currently active
session's own (payload 3) — the transient app's registration replaced
the session's entry in place before the merge. -/
theorem menu_commands_own_loses_refuted :
    lookupD c2State.commands "foo" = some ⟨none, 3⟩ ∧
    lookupD (menu_commands_to_write "tk-silhouette" c2State) "foo" = some ⟨none, 7⟩ ∧
    (⟨none, 7⟩ : Command) ≠ ⟨none, 3⟩ := by
  refine ⟨by decide, by decide, by decide⟩

/-- Witness for `menu_commands_to_write_precedence`: with no collision
on `foo`, the session's own command is the one written. -/
theorem menu_commands_to_write_precedence_witness :
    (keysD c2WitnessState.commands).Nodup ∧
    lookupD c2WitnessState.commands "foo" = some ⟨none, 3⟩ ∧
    (∀ env ∈ c2WitnessState.environments, ∀ app ∈ env.apps,
      appAddsName app "foo" = false) ∧
    lookupD (menu_commands_to_write "tk-silhouette" c2WitnessState) "foo" =
      some ⟨none, 3⟩ := by
  refine ⟨by decide, by decide, by decide, ?_⟩
  exact (menu_commands_to_write_precedence "tk-silhouette" c2WitnessState "foo"
    ⟨none, 3⟩ (by decide)).2 (by decide) (by decide)

/-! ## Engine lemmas: accumulator key uniqueness and file writing -/

theorem nodup_keysD_moveNewCommands_fst (names : List String) :
    ∀ tw cmds : List (String × Command), (keysD tw).Nodup →
      (keysD ((moveNewCommands tw cmds names).1)).Nodup := by
  induction names with
  | nil => intro tw cmds h; exact h
  | cons m rest ih =>
    intro tw cmds h
    have hstep : (moveNewCommands tw cmds (m :: rest)) =
        moveNewCommands
          (match lookupD cmds m with
           | some c => dictSet tw m c
           | none => tw)
          (removeKey cmds m) rest := by
      unfold moveNewCommands
      rw [List.foldl_cons]
      cases hl : lookupD cmds m <;> simp only [hl]
    rw [hstep]
    apply ih
    cases lookupD cmds m with
    | none => exact h
    | some c => exact nodup_keysD_dictSet tw m c h

theorem processApp_to_write_nodup (active : List String) (st : MenuLoopState)
    (app : AppSpec) (h : (keysD st.to_write).Nodup) :
    (keysD ((processApp active st app).to_write)).Nodup := by
  by_cases hact : active.contains app.name = true
  · rw [processApp_skip active st app hact]
    exact h
  · obtain ⟨nm, res⟩ := app
    have hact' : active.contains nm = false := bool_not_true_eq_false hact
    cases res with
    | loadError =>
      rw [processApp_loadError active st nm hact']
      exact h
    | loaded added b =>
      rw [processApp_loaded_eq active st nm added b hact']
      exact nodup_keysD_moveNewCommands_fst _ st.to_write _ h

theorem foldl_processApp_to_write_nodup (active : List String) (apps : List AppSpec) :
    ∀ st : MenuLoopState, (keysD st.to_write).Nodup →
      (keysD ((apps.foldl (processApp active) st).to_write)).Nodup := by
  induction apps with
  | nil => intro st h; exact h
  | cons app rest ih =>
    intro st h
    rw [List.foldl_cons]
    exact ih (processApp active st app) (processApp_to_write_nodup active st app h)

theorem processEnv_to_write_nodup (engine_name : String) (active : List String)
    (st : MenuLoopState) (env : EnvSpec) (h : (keysD st.to_write).Nodup) :
    (keysD ((processEnv engine_name active st env).to_write)).Nodup := by
  unfold processEnv
  by_cases he : env.engines.contains engine_name = true
  · rw [he]
    simp only [if_true]
    exact foldl_processApp_to_write_nodup active env.apps st h
  · rw [bool_not_true_eq_false he]
    exact h

theorem collect_commands_to_write_nodup (engine_name : String) (e : EngineState) :
    (keysD ((collect_commands engine_name e).to_write)).Nodup := by
  unfold collect_commands
  generalize henvs : e.environments.eraseP (fun env => env.name == e.env_name) = envs
  have hgen : ∀ (envs2 : List EnvSpec) (st : MenuLoopState), (keysD st.to_write).Nodup →
      (keysD ((envs2.foldl (processEnv engine_name e.active_apps) st).to_write)).Nodup := by
    intro envs2
    induction envs2 with
    | nil => intro st h; exact h
    | cons env rest ih =>
      intro st h
      rw [List.foldl_cons]
      exact ih (processEnv engine_name e.active_apps st env)
        (processEnv_to_write_nodup engine_name e.active_apps st env h)
  exact hgen envs _ List.nodup_nil

theorem nodup_keysD_dictUpdate {α : Type u} (e : List (String × α)) :
    ∀ d : List (String × α), (keysD d).Nodup → (keysD (dictUpdate d e)).Nodup := by
  induction e with
  | nil => intro d h; exact h
  | cons kv rest ih =>
    intro d h
    have hstep : dictUpdate d (kv :: rest) = dictUpdate (dictSet d kv.1 kv.2) rest := rfl
    rw [hstep]
    exact ih (dictSet d kv.1 kv.2) (nodup_keysD_dictSet d kv.1 kv.2 h)

theorem mem_write_files (names : List String) :
    ∀ (dir : List String) (f : String),
      f ∈ write_files dir names ↔ f ∈ dir ∨ f ∈ names := by
  induction names with
  | nil => intro dir f; simp [write_files]
  | cons n rest ih =>
    intro dir f
    have hstep : write_files dir (n :: rest) =
        write_files (if dir.contains n then dir else dir ++ [n]) rest := rfl
    rw [hstep, ih]
    by_cases hc : dir.contains n = true
    · have hmem : n ∈ dir := (contains_iff_mem dir n).1 hc
      rw [hc]
      simp only [if_true, List.mem_cons]
      constructor
      · rintro (h | h)
        · exact Or.inl h
        · exact Or.inr (Or.inr h)
      · rintro (h | he | h)
        · exact Or.inl h
        · exact Or.inl (he ▸ hmem)
        · exact Or.inr h
    · rw [bool_not_true_eq_false hc]
      simp only [Bool.false_eq_true, if_false, List.mem_append, List.mem_singleton,
        List.mem_cons]
      tauto

theorem nodup_write_files (names : List String) :
    ∀ dir : List String, dir.Nodup → (write_files dir names).Nodup := by
  induction names with
  | nil => intro dir h; exact h
  | cons n rest ih =>
    intro dir h
    have hstep : write_files dir (n :: rest) =
        write_files (if dir.contains n then dir else dir ++ [n]) rest := rfl
    rw [hstep]
    apply ih
    by_cases hc : dir.contains n = true
    · rw [hc]
      simpa using h
    · rw [bool_not_true_eq_false hc]
      simp only [Bool.false_eq_true, if_false]
      rw [List.nodup_append]
      refine ⟨h, List.nodup_singleton n, ?_⟩
      have : ¬ n ∈ dir := (contains_eq_false_iff dir n).1 (bool_not_true_eq_false hc)
      simpa [List.disjoint_singleton] using this

theorem write_files_of_nodup (names : List String) :
    ∀ dir : List String, names.Nodup → (∀ n ∈ names, ¬ n ∈ dir) →
      write_files dir names = dir ++ names := by
  induction names with
  | nil => intro dir _ _; simp [write_files]
  | cons n rest ih =>
    intro dir hnd hdisj
    have hstep : write_files dir (n :: rest) =
        write_files (if dir.contains n then dir else dir ++ [n]) rest := rfl
    have hc : dir.contains n = false :=
      (contains_eq_false_iff dir n).2 (hdisj n (List.mem_cons_self n rest))
    rw [hstep, hc]
    simp only [Bool.false_eq_true, if_false]
    rw [ih (dir ++ [n]) (List.nodup_cons.1 hnd).2 ?_, List.append_assoc]
    · rfl
    · intro m hm hmem
      rcases List.mem_append.1 hmem with h | h
      · exact hdisj m (List.mem_cons.2 (Or.inr hm)) h
      · have hmn : m = n := by simpa using h
        exact (List.nodup_cons.1 hnd).1 (hmn ▸ hm)

theorem length_action_file_names (ctw : List (String × Command)) :
    (action_file_names ctw).length = ctw.length := by
  unfold action_file_names
  rw [List.length_map, List.enum_length]

/-- Claim C1 amended: after every menu-build pass (with a UI — `has_ui`
is hard-coded true), the scratch directory holds exactly the action
files of the accumulated command set — no file from a previous pass
survives the clear-and-rewrite — with one file per distinct DERIVED
action-class name (`short_name`, or the index fallback).  When those
derived names are pairwise distinct this is exactly one file per
distinct command name; same-named short names collapse into one file
(see the counterexample). -/
theorem create_shotgun_menu_scratch (engine_name : String) (e : EngineState) :
    (create_shotgun_menu engine_name e).2 = true ∧
    (create_shotgun_menu engine_name e).1.scratch =
      some (write_files [] (action_file_names (menu_commands_to_write engine_name e))) ∧
    (∀ f : String,
      f ∈ write_files [] (action_file_names (menu_commands_to_write engine_name e)) ↔
      f ∈ action_file_names (menu_commands_to_write engine_name e)) ∧
    (write_files [] (action_file_names (menu_commands_to_write engine_name e))).Nodup ∧
    (keysD (menu_commands_to_write engine_name e)).Nodup ∧
    ((action_file_names (menu_commands_to_write engine_name e)).Nodup →
      (write_files [] (action_file_names (menu_commands_to_write engine_name e))).length =
        (menu_commands_to_write engine_name e).length) := by
  refine ⟨rfl, rfl, ?_, ?_, ?_, ?_⟩
  · intro f
    rw [mem_write_files _ [] f]
    simp
  · exact nodup_write_files _ [] List.nodup_nil
  · unfold menu_commands_to_write
    exact nodup_keysD_dictUpdate ((collect_commands engine_name e).commands)
      ((collect_commands engine_name e).to_write)
      (collect_commands_to_write_nodup engine_name e)
  · intro hnd
    rw [write_files_of_nodup _ [] hnd (by simp), List.nil_append,
      length_action_file_names]

/-- Counterexample to claim C1 as stated: two distinct command names
whose properties share the short name `foo` produce ONE action file
(`foo.py`), not one file per distinct command name (stale files are
still cleared). -/
theorem create_shotgun_menu_one_file_per_name_refuted :
    (create_shotgun_menu "tk-silhouette" c1State).1.scratch = some ["foo.py"] ∧
    keysD (menu_commands_to_write "tk-silhouette" c1State) = ["cmdA", "cmdB"] ∧
    (["foo.py"] : List String).length ≠
      (keysD (menu_commands_to_write "tk-silhouette" c1State)).length := by
  refine ⟨by decide, by decide, by decide⟩

/-- Witness for `create_shotgun_menu_scratch`: with distinct short names
the pass writes exactly the two files `sa.py`, `sb.py`, the stale file
is gone, and the file count equals the command count. -/
theorem create_shotgun_menu_scratch_witness :
    (create_shotgun_menu "tk-silhouette" c1WitnessState).1.scratch =
      some (write_files []
        (action_file_names (menu_commands_to_write "tk-silhouette" c1WitnessState))) ∧
    (action_file_names (menu_commands_to_write "tk-silhouette" c1WitnessState)).Nodup ∧
    (write_files []
      (action_file_names (menu_commands_to_write "tk-silhouette" c1WitnessState))).length =
      (menu_commands_to_write "tk-silhouette" c1WitnessState).length ∧
    (create_shotgun_menu "tk-silhouette" c1WitnessState).1.scratch =
      some ["sa.py", "sb.py"] := by
  have h := create_shotgun_menu_scratch "tk-silhouette" c1WitnessState
  exact ⟨h.2.1, by decide, h.2.2.2.2.2 (by decide), by decide⟩
